import Mathlib

/-!
The aggregation engine of `src/fec.cpp`.

A shallow embedding of the classes `type::device`, `type::entry`, the two
classifiers, `type::freqtable` and of the drain loop of `main`, followed by the
properties proved about them.

Conventions of the embedding.

* A `std::vector<T>` is a `List T`; the `entry*` elements of `freqtable::table`
  are uniquely owned, so the vector of pointers is a list of entries and
  `std::swap` of two pointers exchanges two list elements.
* A C string is the list of its bytes (each in `1 .. 255`); the end of the list
  plays the role of the terminating NUL, and a `0` inside a list terminates the
  string for the comparison functions exactly as it would in memory.
* `dev_t`, `ino_t` are naturals, `off_t` is an integer.  The byte sums of
  `getbytes` are taken in `off_t`, a signed 64-bit integer: every `+=` wraps
  modulo `2^64` into `-2^63 .. 2^63 - 1` (`wrap64`).  Element counts and indices
  are unbounded: they agree with the `unsigned int` results of the source as long
  as those do not wrap (fewer than `2^32` stored pairs).  The one place where the
  source wraps an index on ordinary inputs, `parent(0)`, is modelled with its
  wrap-around.
* A call whose behaviour is undefined in the source (`front()` of an empty
  vector) yields `Result.undefined`.
* `while` loops are structural recursions on a fuel argument; the fuel handed
  over by the embedded member function is shown to be enough for the loop to
  reach its own exit test.
-/

namespace type

/-- The `struct stat`, restricted to the three fields the program reads. -/
structure stat where
  st_dev : Nat
  st_ino : Nat
  st_size : Int
deriving DecidableEq, Repr

/-- The value an `off_t` (signed, 64 bits) holds after an addition whose exact
result is `x`: `x` reduced modulo `2^64` into `-2^63 .. 2^63 - 1`.  The two
constants are `2^63` and `2^64`. -/
def wrap64 (x : Int) : Int :=
  (x + 9223372036854775808) % 18446744073709551616 - 9223372036854775808

/-- The type `device::atom_t`, a `std::pair<ino_t, off_t>`. -/
abbrev atom_t := Nat × Int

/-- The `class device`: the `(inode, size)` pairs seen on one storage device. -/
structure device where
  metadata : List atom_t
  dev_id : Nat
deriving DecidableEq, Repr

namespace device

/-- Constructor `device(dev_t st_dev) : metadata(), dev_id(st_dev)`. -/
def mk_dev (st_dev : Nat) : device := { metadata := [], dev_id := st_dev }

/-- Member `device::add`: `metadata.push_back(atom_t(st.st_ino, st.st_size))`. -/
def add (d : device) (st : stat) : device :=
  { d with metadata := d.metadata ++ [(st.st_ino, st.st_size)] }

/-- Member `device::getdevice`. -/
def getdevice (d : device) : Nat := d.dev_id

/-- Member `device::getcount`: `metadata.size()`. -/
def getcount (d : device) : Nat := d.metadata.length

/-- Member `device::getbytes`: the loop `ret += i->second` over `metadata`, with
`ret` an `off_t`. -/
def getbytes (d : device) : Int := d.metadata.foldl (fun ret a => wrap64 (ret + a.2)) 0

/-- The scan of `std::unique` after its first element: `prev` is the last
element kept, an element equal to it is skipped, any other is kept and becomes
the new `prev`. -/
def uniqueFrom (prev : atom_t) : List atom_t → List atom_t
  | [] => []
  | b :: t => if prev = b then uniqueFrom prev t else b :: uniqueFrom b t

/-- The call `metadata.erase(std::unique(metadata.begin(), metadata.end()), metadata.end())`:
the range that `std::unique` keeps. -/
def unique : List atom_t → List atom_t
  | [] => []
  | a :: t => a :: uniqueFrom a t

/-- Member `device::remove_duplicates`. -/
def remove_duplicates (d : device) : device :=
  { d with metadata := unique d.metadata }

end device

/-- The `class entry`: an identifier and its device buckets. -/
structure entry where
  id : List Nat
  devices : List device
deriving DecidableEq, Repr

namespace entry

/-- The reverse scan of `entry::add` written on the reversed vector: the first
bucket met whose device equals `st.st_dev` receives the pair; `none` when the
scan reaches `rend()`. -/
def addRev (st : stat) : List device → Option (List device)
  | [] => none
  | d :: ds =>
    if st.st_dev = d.getdevice then some (d.add st :: ds)
    else (addRev st ds).map (fun r => d :: r)

/-- Member `entry::add`: scan `devices` from `rbegin()` to `rend()`; when no bucket
matches, push a new `device(st.st_dev)` and add to it, otherwise add to the
bucket found. -/
def add (e : entry) (st : stat) : entry :=
  match addRev st e.devices.reverse with
  | none => { e with devices := e.devices ++ [(device.mk_dev st.st_dev).add st] }
  | some r => { e with devices := r.reverse }

/-- Constructor `entry(const char* fileid, struct stat& st)`, that is `assign`: `setid(fileid)`
then `add(st)` on an entry with no bucket. -/
def assign (fileid : List Nat) (st : stat) : entry :=
  add { id := fileid, devices := [] } st

/-- Member `entry::getid`. -/
def getid (e : entry) : List Nat := e.id

/-- Member `entry::getdevices`: `devices.size()`. -/
def getdevices (e : entry) : Nat := e.devices.length

/-- Member `entry::getcount`: the loop `count += iter->getcount()`. -/
def getcount (e : entry) : Nat := e.devices.foldl (fun count d => count + d.getcount) 0

/-- Member `entry::getbytes`: the loop `bytes += iter->getbytes()`, with `bytes`
an `off_t`. -/
def getbytes (e : entry) : Int :=
  e.devices.foldl (fun bytes d => wrap64 (bytes + d.getbytes)) 0

/-- Member `entry::remove_duplicates`: every bucket's `remove_duplicates`. -/
def remove_duplicates (e : entry) : entry :=
  { e with devices := e.devices.map device.remove_duplicates }

end entry

end type

/-- The table `casein_charmap` of the fallback `strcasecmp`, all 256 entries as written in
the source. -/
def casein_charmap : List Nat := [
    0x00, 0x01, 0x02, 0x03, 0x04, 0x05, 0x06, 0x07,
    0x08, 0x09, 0x0a, 0x0b, 0x0c, 0x0d, 0x0e, 0x0f,
    0x10, 0x11, 0x12, 0x13, 0x14, 0x15, 0x16, 0x17,
    0x18, 0x19, 0x1a, 0x1b, 0x1c, 0x1d, 0x1e, 0x1f,
    0x20, 0x21, 0x22, 0x23, 0x24, 0x25, 0x26, 0x27,
    0x28, 0x29, 0x2a, 0x2b, 0x2c, 0x2d, 0x2e, 0x2f,
    0x30, 0x31, 0x32, 0x33, 0x34, 0x35, 0x36, 0x37,
    0x38, 0x39, 0x3a, 0x3b, 0x3c, 0x3d, 0x3e, 0x3f,
    0x40, 0x61, 0x62, 0x63, 0x64, 0x65, 0x66, 0x67,
    0x68, 0x69, 0x6a, 0x6b, 0x6c, 0x6d, 0x6e, 0x6f,
    0x70, 0x71, 0x72, 0x73, 0x74, 0x75, 0x76, 0x77,
    0x78, 0x79, 0x7a, 0x5b, 0x5c, 0x5d, 0x5e, 0x5f,
    0x60, 0x61, 0x62, 0x63, 0x64, 0x65, 0x66, 0x67,
    0x68, 0x69, 0x6a, 0x6b, 0x6c, 0x6d, 0x6e, 0x6f,
    0x70, 0x71, 0x72, 0x73, 0x74, 0x75, 0x76, 0x77,
    0x78, 0x79, 0x7a, 0x7b, 0x7c, 0x7d, 0x7e, 0x7f,
    0x80, 0x81, 0x82, 0x83, 0x84, 0x85, 0x86, 0x87,
    0x88, 0x89, 0x8a, 0x8b, 0x8c, 0x8d, 0x8e, 0x8f,
    0x90, 0x91, 0x92, 0x93, 0x94, 0x95, 0x96, 0x97,
    0x98, 0x99, 0x9a, 0x9b, 0x9c, 0x9d, 0x9e, 0x9f,
    0xa0, 0xa1, 0xa2, 0xa3, 0xa4, 0xa5, 0xa6, 0xa7,
    0xa8, 0xa9, 0xaa, 0xab, 0xac, 0xad, 0xae, 0xaf,
    0xb0, 0xb1, 0xb2, 0xb3, 0xb4, 0xb5, 0xb6, 0xb7,
    0xb8, 0xb9, 0xba, 0xbb, 0xbc, 0xbd, 0xbe, 0xbf,
    0xc0, 0xe1, 0xe2, 0xe3, 0xe4, 0xc5, 0xe6, 0xe7,
    0xe8, 0xe9, 0xea, 0xeb, 0xec, 0xed, 0xee, 0xef,
    0xf0, 0xf1, 0xf2, 0xf3, 0xf4, 0xf5, 0xf6, 0xf7,
    0xf8, 0xf9, 0xfa, 0xdb, 0xdc, 0xdd, 0xde, 0xdf,
    0xe0, 0xe1, 0xe2, 0xe3, 0xe4, 0xe5, 0xe6, 0xe7,
    0xe8, 0xe9, 0xea, 0xeb, 0xec, 0xed, 0xee, 0xef,
    0xf0, 0xf1, 0xf2, 0xf3, 0xf4, 0xf5, 0xf6, 0xf7,
    0xf8, 0xf9, 0xfa, 0xfb, 0xfc, 0xfd, 0xfe, 0xff]

/-- The lookup `casein_charmap[u]` for `u` an `unsigned char`: the cast reduces modulo 256. -/
def charmap (u : Nat) : Nat := casein_charmap.getD (u % 256) 0

/-- The fallback `strcasecmp` of the source: at each position `u1`, `u2` are the
current bytes (`0` at the end of a string); the loop breaks when `u1` is NUL or
the folded bytes differ and returns the difference of the folded bytes. -/
def strcasecmp : List Nat → List Nat → Int
  | [], s2 => (charmap 0 : Int) - (charmap (s2.headD 0) : Int)
  | u1 :: s1, s2 =>
    if u1 % 256 = 0 ∨ charmap u1 ≠ charmap (s2.headD 0) then
      (charmap u1 : Int) - (charmap (s2.headD 0) : Int)
    else strcasecmp s1 s2.tail

/-- The C library `strcmp`: the difference of the bytes at the first position
where the strings differ or where the first one ends. -/
def strcmp : List Nat → List Nat → Int
  | [], s2 => (0 : Int) - ((s2.headD 0 % 256 : Nat) : Int)
  | u1 :: s1, s2 =>
    if u1 % 256 = 0 ∨ u1 % 256 ≠ s2.headD 0 % 256 then
      ((u1 % 256 : Nat) : Int) - ((s2.headD 0 % 256 : Nat) : Int)
    else strcmp s1 s2.tail

namespace type

/-- The `class classifier`: the abstract `bool operator()(const char*, const char*)`. -/
abbrev classifier := List Nat → List Nat → Bool

/-- Member `binary_classifier::operator()`: `strcmp(s1, s2) == 0`. -/
def binary_classifier : classifier := fun s1 s2 => strcmp s1 s2 == 0

/-- Member `case_insensitive_classifier::operator()`: `strcasecmp(s1, s2) == 0`. -/
def case_insensitive_classifier : classifier := fun s1 s2 => strcasecmp s1 s2 == 0

/-- The ways a call can end: it returns a value, it throws a C++ exception (the
way the source would signal an error, as `std::vector::at` does), or the source
gives it no defined behaviour. -/
inductive Result (α : Type) where
  | ok (a : α)
  | exception
  | undefined
deriving DecidableEq, Repr

/-- The `class freqtable`: the vector `table` of groups, kept as a binary max-heap on
`getcount()`. -/
structure freqtable where
  table : List entry
deriving DecidableEq, Repr

namespace freqtable

/-- Constructor `freqtable() : table() {}`. -/
def new : freqtable := { table := [] }

/-- Member `freqtable::empty`: `table.empty()`. -/
def empty (ft : freqtable) : Bool := ft.table.isEmpty

/-- Member `freqtable::size`: `table.size()`. -/
def size (ft : freqtable) : Nat := ft.table.length

/-- Member `freqtable::top`: `table.front()`, which is undefined on an empty vector; the
source makes no test of its own. -/
def top (ft : freqtable) : Result entry :=
  match ft.table with
  | [] => Result.undefined
  | e :: _ => Result.ok e

/-- Member `freqtable::left`: `2*i + 1`. -/
def left (i : Nat) : Nat := 2 * i + 1

/-- Member `freqtable::right`: `2*i + 2`. -/
def right (i : Nat) : Nat := 2 * i + 2

/-- Member `freqtable::parent`: `(i-1)/2` on an `unsigned int`; for `i = 0` the
subtraction wraps to `2^32 - 1`. -/
def parent (i : Nat) : Nat := if i = 0 then (2 ^ 32 - 1) / 2 else (i - 1) / 2

/-- The read `table[i]->getcount()`.  Outside the vector the source reads garbage; the
model reads `0` there. -/
def countAt (t : List entry) (i : Nat) : Nat :=
  match t[i]? with
  | some e => e.getcount
  | none => 0

/-- The call `std::swap(table[i], table[j])`. -/
def swap (t : List entry) (i j : Nat) : List entry :=
  match t[i]?, t[j]? with
  | some a, some b => (t.set i b).set j a
  | _, _ => t

/-- The `while` loop of `freqtable::bubbleUp` with its two variables `i`, `p`. -/
def bubbleUpLoop : Nat → List entry → Nat → Nat → List entry
  | 0, t, _, _ => t
  | fuel + 1, t, i, p =>
    if i > 0 ∧ countAt t i > countAt t p then
      bubbleUpLoop fuel (swap t i p) p (parent p)
    else t

/-- Member `freqtable::bubbleUp`.  The loop moves `i` to its parent at every turn, so
`i` turns are enough. -/
def bubbleUp (ft : freqtable) (i : Nat) : freqtable :=
  { table := bubbleUpLoop i ft.table i (parent i) }

/-- The `while (1)` loop of `freqtable::trickleDown`; `k` is `table.size()` read
before the loop. -/
def trickleDownLoop : Nat → Nat → List entry → Nat → List entry
  | 0, _, t, _ => t
  | fuel + 1, k, t, i =>
    let r := right i
    let l := left i
    if r < k ∧ countAt t r > countAt t i then
      let j := if countAt t l > countAt t r then l else r
      trickleDownLoop fuel k (swap t i j) j
    else if l < k ∧ countAt t l > countAt t i then
      trickleDownLoop fuel k (swap t i l) l
    else t

/-- Member `freqtable::trickleDown`.  The loop moves `i` to a child below `k` at every
turn, so `k - i` turns are enough. -/
def trickleDown (ft : freqtable) (i : Nat) : freqtable :=
  { table := trickleDownLoop (ft.table.length - i) ft.table.length ft.table i }

/-- The `for` loop of `freqtable::find` from index `i` on; `-1` when no group
matches. -/
def findFrom (cl : classifier) (x : List Nat) : List entry → Nat → Int
  | [], _ => -1
  | e :: es, i => if cl e.getid x then (i : Int) else findFrom cl x es (i + 1)

/-- Member `freqtable::find`. -/
def find (ft : freqtable) (x : List Nat) (cl : classifier) : Int :=
  findFrom cl x ft.table 0

/-- The call `table.at(pos)->add(st)`; `pos` comes from `find` and is in range, so the
range check of `at` does not fire. -/
def addAt (t : List entry) (pos : Nat) (st : stat) : List entry :=
  match t[pos]? with
  | some e => t.set pos (e.add st)
  | none => t

/-- Member `freqtable::insert`. -/
def insert (ft : freqtable) (fileid : List Nat) (st : stat) (cl : classifier) : freqtable :=
  let pos := find ft fileid cl
  if pos = -1 then
    let table := ft.table ++ [entry.assign fileid st]
    bubbleUp { table := table } (table.length - 1)
  else
    bubbleUp { table := addAt ft.table pos.toNat st } pos.toNat

/-- Member `freqtable::pop`: delete the front group, overwrite the front with the back,
`pop_back`, `trickleDown(0)`.  On an empty vector `front()` is undefined and the
source makes no test of its own. -/
def pop (ft : freqtable) : Result freqtable :=
  match ft.table with
  | [] => Result.undefined
  | e :: rest =>
    let table := ((e :: rest).set 0 ((e :: rest).getLastD e)).dropLast
    Result.ok (trickleDown { table := table } 0)

end freqtable

end type

/-- One call `outdev.insert(ptr, stbuf, cl)` of the traversal driver. -/
structure Observation where
  fileid : List Nat
  st : type.stat
  cl : type.classifier

/-- The table after a sequence of `insert` calls on `ft`. -/
def insertAll (ft : type.freqtable) (obs : List Observation) : type.freqtable :=
  obs.foldl (fun t o => t.insert o.fileid o.st o.cl) ft

/-- The table built from the empty table by a sequence of `insert` calls. -/
def build (obs : List Observation) : type.freqtable := insertAll type.freqtable.new obs

/-- One output line of `main`: `getid()`, `getdevices()`, `getcount()`,
`getbytes()` of the group on top. -/
structure Row where
  id : List Nat
  devices : Nat
  count : Nat
  bytes : Int
deriving DecidableEq, Repr

/-- The print loop of `main`: while the table is not empty, take `top()`, call
`remove_duplicates()` on it unless `count_links` is set (the group is changed in
place, inside the table), print its line, `pop()`. -/
def drainLoop : Nat → Bool → type.freqtable → List Row
  | 0, _, _ => []
  | fuel + 1, count_links, storage =>
    if storage.empty then []
    else
      match storage.top with
      | type.Result.exception => []
      | type.Result.undefined => []
      | type.Result.ok top =>
        let tmpent := if !count_links then top.remove_duplicates else top
        let storage1 : type.freqtable := { table := storage.table.set 0 tmpent }
        { id := tmpent.getid, devices := tmpent.getdevices, count := tmpent.getcount,
          bytes := tmpent.getbytes } ::
          match storage1.pop with
          | type.Result.ok storage2 => drainLoop fuel count_links storage2
          | _ => []

/-- The output of `main` for a filled table; every turn of the loop pops one
group, so `size()` turns are enough. -/
def drain (count_links : Bool) (storage : type.freqtable) : List Row :=
  drainLoop storage.size count_links storage

/-- The loop `while (!empty()) { top(); pop(); }` without any change to the
groups: the groups in the order in which `top()` returns them. -/
def popAllLoop : Nat → type.freqtable → List type.entry
  | 0, _ => []
  | fuel + 1, ft =>
    if ft.empty then []
    else
      match ft.top, ft.pop with
      | type.Result.ok e, type.Result.ok ft1 => e :: popAllLoop fuel ft1
      | _, _ => []

/-- Drain by `top()` and `pop()` until `empty()`. -/
def popAll (ft : type.freqtable) : List type.entry := popAllLoop ft.size ft

/-- The max-heap invariant of the table on `getcount()`: no child counts more
than its parent. -/
def heapInvariant (t : List type.entry) : Prop :=
  ∀ i c, (c = 2 * i + 1 ∨ c = 2 * i + 2) → c < t.length →
    type.freqtable.countAt t c ≤ type.freqtable.countAt t i

/-- The heap order at every index but `x`: every index other than `x` counts no
more than its parent, and the children of `x` count no more than the parent of
`x`.  This is what `bubbleUp` finds when the count at `x` has grown. -/
def heapButUp (t : List type.entry) (x : Nat) : Prop :=
  (∀ c, 0 < c → c < t.length → c ≠ x →
      type.freqtable.countAt t c ≤ type.freqtable.countAt t ((c - 1) / 2)) ∧
  (0 < x → ∀ c, c < t.length → (c - 1) / 2 = x →
      type.freqtable.countAt t c ≤ type.freqtable.countAt t ((x - 1) / 2))

/-- The heap order everywhere but between `x` and its children: every index
whose parent is not `x` counts no more than its parent, and the children of `x`
count no more than the parent of `x`.  This is what `trickleDown` finds when the
group at `x` has been replaced. -/
def heapButDown (t : List type.entry) (x : Nat) : Prop :=
  (∀ c, 0 < c → c < t.length → (c - 1) / 2 ≠ x →
      type.freqtable.countAt t c ≤ type.freqtable.countAt t ((c - 1) / 2)) ∧
  (0 < x → ∀ c, c < t.length → (c - 1) / 2 = x →
      type.freqtable.countAt t c ≤ type.freqtable.countAt t ((x - 1) / 2))

/-- The identifier `jpg` as bytes. -/
def id_jpg : List Nat := [106, 112, 103]

/-- The identifier `JPG` as bytes. -/
def id_JPG : List Nat := [74, 80, 71]

/-- The identifier `png` as bytes. -/
def id_png : List Nat := [112, 110, 103]

/-- The three observations of the scenario: `jpg` twice with the same device,
inode and size (a hard link), then `png`. -/
def scenarioObs (cl : type.classifier) : List Observation :=
  [ { fileid := id_jpg, st := { st_dev := 1, st_ino := 10, st_size := 2048 }, cl := cl },
    { fileid := id_jpg, st := { st_dev := 1, st_ino := 10, st_size := 2048 }, cl := cl },
    { fileid := id_png, st := { st_dev := 1, st_ino := 20, st_size := 4096 }, cl := cl } ]

/-- Two bytes that are equal, or are the upper-case and lower-case form of one
ASCII letter (`A`..`Z` is 65..90, the lower-case letter is 32 above). -/
def sameUpToAsciiCase (a b : Nat) : Prop :=
  a = b ∨ (65 ≤ a ∧ a ≤ 90 ∧ b = a + 32) ∨ (65 ≤ b ∧ b ≤ 90 ∧ a = b + 32)

/-- The bytes of a C string: none is NUL and each fits an `unsigned char`. -/
def isCString (s : List Nat) : Prop := ∀ b ∈ s, 0 < b ∧ b < 256

/-- Two identifiers that differ, and differ only in the case of ASCII letters. -/
def differOnlyInAsciiCase (s1 s2 : List Nat) : Prop :=
  List.Forall₂ sameUpToAsciiCase s1 s2 ∧ s1 ≠ s2

/-- The line that `main` prints for the group on top: the group is first passed
through `remove_duplicates()` unless `count_links` is set. -/
def reportRow (count_links : Bool) (e : type.entry) : Row :=
  let tmpent := if !count_links then e.remove_duplicates else e
  { id := tmpent.getid, devices := tmpent.getdevices, count := tmpent.getcount,
    bytes := tmpent.getbytes }

/-- Five observations: three hard links of one `jpg` inode, then two different
`png` files. -/
def linkedObs : List Observation :=
  [ { fileid := id_jpg, st := { st_dev := 1, st_ino := 10, st_size := 2048 },
      cl := type.binary_classifier },
    { fileid := id_jpg, st := { st_dev := 1, st_ino := 10, st_size := 2048 },
      cl := type.binary_classifier },
    { fileid := id_jpg, st := { st_dev := 1, st_ino := 10, st_size := 2048 },
      cl := type.binary_classifier },
    { fileid := id_png, st := { st_dev := 1, st_ino := 20, st_size := 4096 },
      cl := type.binary_classifier },
    { fileid := id_png, st := { st_dev := 1, st_ino := 21, st_size := 4096 },
      cl := type.binary_classifier } ]

/-- A group built by three `add` calls on one device: inode 10, inode 20, and
inode 10 again (a hard link of the first file, seen after another file). -/
def interleavedGroup : type.entry :=
  ((type.entry.assign id_jpg { st_dev := 1, st_ino := 10, st_size := 2048 }).add
      { st_dev := 1, st_ino := 20, st_size := 1 }).add
    { st_dev := 1, st_ino := 10, st_size := 2048 }

/-- A bucket whose entry list has a duplicate pair that is not adjacent. -/
def interleavedBucket : type.device :=
  { metadata := [(10, 2048), (20, 1), (10, 2048)], dev_id := 1 }

/-- The entry list after the collapse that the specification describes: the list
is cut into its maximal runs of consecutive identical pairs and each run is
replaced by its first element. -/
def collapseRuns (l : List type.atom_t) : List type.atom_t :=
  (l.splitBy (fun a b => a == b)).filterMap List.head?

/-- The table after the single observation `JPG` under the case-insensitive
classifier. -/
def upperCaseTable : type.freqtable :=
  build [{ fileid := id_JPG, st := { st_dev := 1, st_ino := 10, st_size := 2048 },
           cl := type.case_insensitive_classifier }]

/-- The classifier that `main` creates: the case-insensitive one when
`globaloptions.case_insensitive` is set, the exact one otherwise. -/
def classifierOf (case_insensitive : Bool) : type.classifier :=
  if case_insensitive then type.case_insensitive_classifier else type.binary_classifier

/-- The `insert` calls of a run that uses one classifier throughout, for the
files given by identifier and `stat`. -/
def observe (case_insensitive : Bool) (files : List (List Nat × type.stat)) :
    List Observation :=
  files.map (fun f => { fileid := f.1, st := f.2, cl := classifierOf case_insensitive })

/-- A sequence of `insert` calls in which every call names its own classifier. -/
def observeEach (calls : List (Bool × List Nat × type.stat)) : List Observation :=
  calls.map (fun c => { fileid := c.2.1, st := c.2.2, cl := classifierOf c.1 })

/-- The files of the scenario, by identifier and `stat`. -/
def scenarioFiles : List (List Nat × type.stat) :=
  [ (id_jpg, { st_dev := 1, st_ino := 10, st_size := 2048 }),
    (id_jpg, { st_dev := 1, st_ino := 10, st_size := 2048 }),
    (id_png, { st_dev := 1, st_ino := 20, st_size := 4096 }) ]

/-- A group after its constructor and further `add` calls, one per observation:
the constructor is `assign`, that is `setid` followed by `add` on an entry with no
bucket, so the group is `add` folded over the observations from that entry. -/
def groupOf (fileid : List Nat) (sts : List type.stat) : type.entry :=
  sts.foldl type.entry.add { id := fileid, devices := [] }

/-- Three observations on one device: two hard links of inode 10, then inode 20. -/
def linkedStats : List type.stat :=
  [ { st_dev := 1, st_ino := 10, st_size := 2048 },
    { st_dev := 1, st_ino := 10, st_size := 2048 },
    { st_dev := 1, st_ino := 20, st_size := 4096 } ]

/-- The C library `strrchr(s, c)` for a byte `c` other than NUL: the tail of `s`
that starts at the last occurrence of `c`, or `none` (the null pointer) when `c`
does not occur in the string. -/
def strrchr : List Nat → Nat → Option (List Nat)
  | [], _ => none
  | u :: s, c =>
    if u % 256 = 0 then none
    else
      match strrchr s c with
      | some r => some r
      | none => if u % 256 = c % 256 then some (u :: s) else none

/-- The identifier that the `S_IFREG` case of `parse_dir` passes to `insert` for a
directory entry named `d_name`, or `none` when the case ends in one of its two
`break`s.  `ptr = strrchr(ptr, '.')`; a null `ptr` breaks; then
`if (*ptr++ == '\0') break;` compares the byte at `ptr` (the `'.'` itself) with
NUL and moves `ptr` one byte on. -/
def regular_file_id (d_name : List Nat) : Option (List Nat) :=
  match strrchr d_name 46 with
  | none => none
  | some ptr => if ptr.headD 0 % 256 = 0 then none else some ptr.tail

/-- The `S_IFREG` case of `parse_dir`: `outdev.insert(ptr, stbuf, cl)` unless the
case broke before. -/
def parse_regular (d_name : List Nat) (stbuf : type.stat) (outdev : type.freqtable)
    (cl : type.classifier) : type.freqtable :=
  match regular_file_id d_name with
  | none => outdev
  | some ptr => outdev.insert ptr stbuf cl

/-- The loop of `freqtable::bubbleUp` run with a record of the positions of
`table` that it dereferences: the test reads `table[i]` and `table[p]` only when
`i > 0` holds (`&&` does not evaluate its right side otherwise), and
`std::swap` touches `table[i]` and `table[p]`.  The result is `none` when the
fuel ends before the loop reaches its exit. -/
def bubbleUpRun : Nat → List type.entry → Nat → Nat → Option (List type.entry × List Nat)
  | 0, _, _, _ => none
  | fuel + 1, t, i, p =>
    if i > 0 then
      if type.freqtable.countAt t i > type.freqtable.countAt t p then
        match bubbleUpRun fuel (type.freqtable.swap t i p) p (type.freqtable.parent p) with
        | some (t1, acc) => some (t1, i :: p :: i :: p :: acc)
        | none => none
      else some (t, [i, p])
    else some (t, [])

/-- The loop of `freqtable::trickleDown` run with a record of the positions of
`table` that it dereferences: each test reads its two elements only when the
bound check before `&&` holds, the choice of `j` reads `table[l]` and
`table[r]`, and `std::swap` touches `table[i]` and `table[j]`.  The result is
`none` when the fuel ends before the loop reaches its `break`. -/
def trickleDownRun : Nat → Nat → List type.entry → Nat → Option (List type.entry × List Nat)
  | 0, _, _, _ => none
  | fuel + 1, k, t, i =>
    let r := type.freqtable.right i
    let l := type.freqtable.left i
    if r < k then
      if type.freqtable.countAt t r > type.freqtable.countAt t i then
        let j := if type.freqtable.countAt t l > type.freqtable.countAt t r then l else r
        match trickleDownRun fuel k (type.freqtable.swap t i j) j with
        | some (t1, acc) => some (t1, r :: i :: l :: r :: i :: j :: acc)
        | none => none
      else if l < k then
        if type.freqtable.countAt t l > type.freqtable.countAt t i then
          match trickleDownRun fuel k (type.freqtable.swap t i l) l with
          | some (t1, acc) => some (t1, r :: i :: l :: i :: i :: l :: acc)
          | none => none
        else some (t, [r, i, l, i])
      else some (t, [r, i])
    else if l < k then
      if type.freqtable.countAt t l > type.freqtable.countAt t i then
        match trickleDownRun fuel k (type.freqtable.swap t i l) l with
        | some (t1, acc) => some (t1, l :: i :: i :: l :: acc)
        | none => none
      else some (t, [l, i])
    else some (t, [])

/-- The vector of the table of the scenario under the exact classifier. -/
def scenarioTable : List type.entry := (build (scenarioObs type.binary_classifier)).table

/-- Two observations on one device: two hard links of one file of `2^62` bytes
(a sparse file). -/
def hugeStats : List type.stat :=
  [ { st_dev := 1, st_ino := 10, st_size := 4611686018427387904 },
    { st_dev := 1, st_ino := 10, st_size := 4611686018427387904 } ]

/-- The exact sum of the sizes stored in a bucket, as a mathematical integer. -/
def bucketSum (d : type.device) : Int := (d.metadata.map (fun a => a.2)).sum

/-- The exact sum of the sizes stored in all buckets of a group, as a
mathematical integer. -/
def groupSum (e : type.entry) : Int := (e.devices.map bucketSum).sum

/-! Properties of the embedding. -/

namespace Fec

open type freqtable

theorem length_swap (t : List entry) (i j : Nat) : (swap t i j).length = t.length := by
  unfold swap
  split <;> simp

theorem getElem?_swap (t : List entry) (i j c : Nat) (hi : i < t.length) (hj : j < t.length) :
    (swap t i j)[c]? = if c = j then t[i]? else if c = i then t[j]? else t[c]? := by
  unfold swap
  rw [List.getElem?_eq_getElem hi, List.getElem?_eq_getElem hj]
  simp only [List.getElem?_set]
  by_cases h1 : c = j
  · subst h1; simp [hi, hj]
  · by_cases h2 : c = i
    · subst h2; simp [hi, hj, h1, Ne.symm h1]
    · simp [h1, h2, Ne.symm h1, Ne.symm h2]

theorem countAt_swap (t : List entry) (i j c : Nat) (hi : i < t.length) (hj : j < t.length) :
    countAt (swap t i j) c =
      if c = j then countAt t i else if c = i then countAt t j else countAt t c := by
  unfold countAt
  rw [getElem?_swap t i j c hi hj]
  split_ifs <;> rfl

theorem swap_perm (t : List entry) (i j : Nat) : (swap t i j).Perm t := by
  unfold swap
  split
  · rename_i a b ha hb
    rw [List.perm_iff_count]
    intro x
    have hi : i < t.length := by
      rcases List.getElem?_eq_some.mp ha with ⟨h, _⟩; exact h
    have hj : j < t.length := by
      rcases List.getElem?_eq_some.mp hb with ⟨h, _⟩; exact h
    have hai : t[i] = a := by
      rcases List.getElem?_eq_some.mp ha with ⟨_, h⟩; exact h
    have hbj : t[j] = b := by
      rcases List.getElem?_eq_some.mp hb with ⟨_, h⟩; exact h
    rw [List.count_set _ _ _ _ (by simpa using hj), List.count_set _ _ _ _ hi]
    simp only [List.getElem_set]
    have h1 : 0 < t.count a := List.count_pos_iff.mpr (hai ▸ List.getElem_mem hi)
    have h2 : 0 < t.count b := List.count_pos_iff.mpr (hbj ▸ List.getElem_mem hj)
    by_cases hij : i = j
    · subst hij
      have : a = b := by rw [← hai, ← hbj]
      subst this
      simp only [hai, if_true]
      by_cases hax : a = x
      · subst hax; simp; omega
      · simp [hax]
    · simp only [hij, if_false, hai, hbj]
      by_cases hax : a = x <;> by_cases hbx : b = x <;> simp [hax, hbx] <;> (try subst hax) <;> (try subst hbx) <;> omega
  · exact List.Perm.refl _

theorem heapInvariant_iff (t : List entry) :
    heapInvariant t ↔ ∀ c, 0 < c → c < t.length → countAt t c ≤ countAt t ((c - 1) / 2) := by
  constructor
  · intro h c hc hlt
    exact h ((c - 1) / 2) c (by omega) hlt
  · intro h i c hc hlt
    have := h c (by omega) hlt
    have e : (c - 1) / 2 = i := by omega
    rwa [e] at this

theorem parent_pos {i : Nat} (h : 0 < i) : parent i = (i - 1) / 2 := by
  unfold parent
  rw [if_neg (by omega)]

theorem heapButUp_swap (t : List entry) (i : Nat) (hi : 0 < i) (hin : i < t.length)
    (H : heapButUp t i) (hgt : countAt t ((i - 1) / 2) < countAt t i) :
    heapButUp (swap t i ((i - 1) / 2)) ((i - 1) / 2) := by
  obtain ⟨H1, H2⟩ := H
  have H2 := H2 hi
  have hp : (i - 1) / 2 < t.length := by omega
  have hpi : (i - 1) / 2 ≠ i := by omega
  constructor
  · intro c hc hcn hcp
    rw [length_swap] at hcn
    rw [countAt_swap t _ _ _ hin hp, countAt_swap t _ _ _ hin hp]
    rw [if_neg hcp]
    by_cases hci : c = i
    · subst hci
      rw [if_pos rfl, if_pos rfl]
      omega
    · rw [if_neg hci]
      by_cases hq : (c - 1) / 2 = (i - 1) / 2
      · rw [if_pos hq]
        have := H1 c hc hcn hci
        rw [hq] at this
        omega
      · rw [if_neg hq]
        by_cases hq2 : (c - 1) / 2 = i
        · rw [if_pos hq2]
          exact H2 c hcn hq2
        · rw [if_neg hq2]
          exact H1 c hc hcn hci
  · intro hp0 c hcn hcp
    rw [length_swap] at hcn
    rw [countAt_swap t _ _ _ hin hp, countAt_swap t _ _ _ hin hp]
    have hc0 : 0 < c := by omega
    have hcne : c ≠ (i - 1) / 2 := by omega
    rw [if_neg hcne, if_neg (by omega : ¬ ((i - 1) / 2 - 1) / 2 = (i - 1) / 2),
      if_neg (by omega : ¬ ((i - 1) / 2 - 1) / 2 = i)]
    have hpp := H1 ((i - 1) / 2) hp0 hp hpi
    by_cases hci : c = i
    · rw [if_pos hci]; exact hpp
    · rw [if_neg hci]
      have := H1 c hc0 hcn hci
      rw [hcp] at this
      omega

theorem bubbleUpLoop_heap : ∀ (fuel : Nat) (t : List entry) (i : Nat),
    i ≤ fuel → i < t.length → heapButUp t i →
    heapInvariant (bubbleUpLoop fuel t i (parent i)) := by
  intro fuel
  induction fuel with
  | zero =>
    intro t i hif _ H
    have hi0 : i = 0 := by omega
    subst hi0
    rw [heapInvariant_iff]
    intro c hc hcn
    exact H.1 c hc hcn (by omega)
  | succ fuel ih =>
    intro t i hif hin H
    unfold bubbleUpLoop
    split_ifs with hcond
    · obtain ⟨hi, hgt⟩ := hcond
      rw [parent_pos hi] at hgt ⊢
      have hp : (i - 1) / 2 < t.length := by omega
      exact ih (swap t i ((i - 1) / 2)) ((i - 1) / 2) (by omega)
        (by rw [length_swap]; exact hp) (heapButUp_swap t i hi hin H hgt)
    · rw [heapInvariant_iff]
      intro c hc hcn
      by_cases hci : c = i
      · subst hci
        rw [parent_pos hc] at hcond
        have : ¬ countAt t c > countAt t ((c - 1) / 2) := fun h => hcond ⟨hc, h⟩
        omega
      · exact H.1 c hc hcn hci

theorem bubbleUpLoop_perm : ∀ (fuel : Nat) (t : List entry) (i p : Nat),
    (bubbleUpLoop fuel t i p).Perm t := by
  intro fuel
  induction fuel with
  | zero => intro t i p; exact List.Perm.refl _
  | succ fuel ih =>
    intro t i p
    unfold bubbleUpLoop
    split_ifs
    · exact (ih _ _ _).trans (swap_perm t i p)
    · exact List.Perm.refl _

/-- Fuel adequacy of `bubbleUp`: once the fuel covers `i`, more fuel changes nothing. -/
theorem bubbleUpLoop_fuel : ∀ (fuel : Nat) (t : List entry) (i : Nat),
    i ≤ fuel → bubbleUpLoop (fuel + 1) t i (parent i) = bubbleUpLoop fuel t i (parent i) := by
  intro fuel
  induction fuel with
  | zero =>
    intro t i hif
    have hi0 : i = 0 := by omega
    subst hi0
    simp [bubbleUpLoop]
  | succ fuel ih =>
    intro t i hif
    conv_lhs => unfold bubbleUpLoop
    conv_rhs => unfold bubbleUpLoop
    split_ifs with hcond
    · have hi := hcond.1
      rw [parent_pos hi]
      exact ih _ _ (by omega)
    · rfl

theorem heapButDown_swap (t : List entry) (i j : Nat) (hj : j = 2 * i + 1 ∨ j = 2 * i + 2)
    (hjn : j < t.length) (H : heapButDown t i) (hgt : countAt t i < countAt t j)
    (hmax : ∀ c, c < t.length → (c = 2 * i + 1 ∨ c = 2 * i + 2) → countAt t c ≤ countAt t j) :
    heapButDown (swap t i j) j := by
  obtain ⟨H1, H2⟩ := H
  have hin : i < t.length := by omega
  have hij : i ≠ j := by omega
  have hpj : (j - 1) / 2 = i := by omega
  constructor
  · intro c hc hcn hcp
    rw [length_swap] at hcn
    rw [countAt_swap t _ _ _ hin hjn, countAt_swap t _ _ _ hin hjn]
    by_cases hcj : c = j
    · subst hcj
      rw [if_pos rfl, hpj, if_neg hij, if_pos rfl]
      omega
    · rw [if_neg hcj, if_neg hcp]
      by_cases hci : c = i
      · subst hci
        rw [if_pos rfl, if_neg (by omega)]
        exact H2 hc j hjn hpj
      · rw [if_neg hci]
        by_cases hq : (c - 1) / 2 = i
        · rw [if_pos hq]
          exact hmax c hcn (by omega)
        · rw [if_neg hq]
          exact H1 c hc hcn hq
  · intro _ c hcn hcp
    rw [length_swap] at hcn
    rw [countAt_swap t _ _ _ hin hjn, countAt_swap t _ _ _ hin hjn]
    rw [if_neg (by omega : ¬ c = j), if_neg (by omega : ¬ c = i), hpj, if_neg hij, if_pos rfl]
    have := H1 c (by omega) hcn (by omega)
    rwa [hcp] at this

theorem trickleDownLoop_heap : ∀ (fuel : Nat) (t : List entry) (i : Nat),
    t.length - i ≤ fuel → heapButDown t i →
    heapInvariant (trickleDownLoop fuel t.length t i) := by
  intro fuel
  induction fuel with
  | zero =>
    intro t i hf H
    change heapInvariant t
    rw [heapInvariant_iff]
    intro c hc hcn
    exact H.1 c hc hcn (by omega)
  | succ fuel ih =>
    intro t i hf H
    unfold trickleDownLoop
    simp only [left, right]
    split_ifs with h1 h2 h3
    · have e := ih (swap t i (2 * i + 1)) (2 * i + 1) (by rw [length_swap]; omega)
        (heapButDown_swap t i _ (Or.inl rfl) (by omega) H (by omega) (by
          intro c _ hc; rcases hc with hc | hc <;> subst hc <;> omega))
      rwa [length_swap] at e
    · have e := ih (swap t i (2 * i + 2)) (2 * i + 2) (by rw [length_swap]; omega)
        (heapButDown_swap t i _ (Or.inr rfl) (by omega) H (by omega) (by
          intro c _ hc; rcases hc with hc | hc <;> subst hc <;> omega))
      rwa [length_swap] at e
    · have e := ih (swap t i (2 * i + 1)) (2 * i + 1) (by rw [length_swap]; omega)
        (heapButDown_swap t i _ (Or.inl rfl) (by omega) H (by omega) (by
          intro c hcn hc
          rcases hc with hc | hc
          · subst hc; omega
          · subst hc
            have : ¬ countAt t (2 * i + 2) > countAt t i := fun h => h1 ⟨hcn, h⟩
            omega))
      rwa [length_swap] at e
    · rw [heapInvariant_iff]
      intro c hc hcn
      by_cases hq : (c - 1) / 2 = i
      · rw [hq]
        have hcc : c = 2 * i + 1 ∨ c = 2 * i + 2 := by omega
        rcases hcc with hcc | hcc
        · subst hcc
          have : ¬ countAt t (2 * i + 1) > countAt t i := fun h => h3 ⟨hcn, h⟩
          omega
        · subst hcc
          have : ¬ countAt t (2 * i + 2) > countAt t i := fun h => h1 ⟨hcn, h⟩
          omega
      · exact H.1 c hc hcn hq

theorem trickleDownLoop_perm : ∀ (fuel k : Nat) (t : List entry) (i : Nat),
    (trickleDownLoop fuel k t i).Perm t := by
  intro fuel
  induction fuel with
  | zero => intro k t i; exact List.Perm.refl _
  | succ fuel ih =>
    intro k t i
    unfold trickleDownLoop
    simp only []
    split_ifs
    · exact (ih _ _ _).trans (swap_perm t _ _)
    · exact (ih _ _ _).trans (swap_perm t _ _)
    · exact (ih _ _ _).trans (swap_perm t _ _)
    · exact List.Perm.refl _

/-- Fuel adequacy of `trickleDown`: once the fuel covers `k - i`, more fuel
changes nothing. -/
theorem trickleDownLoop_fuel : ∀ (fuel : Nat) (t : List entry) (i : Nat),
    t.length - i ≤ fuel →
    trickleDownLoop (fuel + 1) t.length t i = trickleDownLoop fuel t.length t i := by
  intro fuel
  induction fuel with
  | zero =>
    intro t i hf
    unfold trickleDownLoop
    simp only [left, right]
    rw [if_neg (by omega), if_neg (by omega)]
  | succ fuel ih =>
    intro t i hf
    conv_lhs => unfold trickleDownLoop
    conv_rhs => unfold trickleDownLoop
    simp only [left, right]
    split_ifs with h1 h2 h3
    · have e := ih (swap t i (2 * i + 1)) (2 * i + 1) (by rw [length_swap]; omega)
      rwa [length_swap] at e
    · have e := ih (swap t i (2 * i + 2)) (2 * i + 2) (by rw [length_swap]; omega)
      rwa [length_swap] at e
    · have e := ih (swap t i (2 * i + 1)) (2 * i + 1) (by rw [length_swap]; omega)
      rwa [length_swap] at e
    · rfl

theorem foldl_add_eq_sum {α : Type} (f : α → Nat) (l : List α) (a : Nat) :
    l.foldl (fun c d => c + f d) a = a + (l.map f).sum := by
  induction l generalizing a with
  | nil => simp
  | cons x xs ih => simp [List.foldl_cons, ih]; omega

theorem entry_getcount_eq (e : entry) :
    e.getcount = (e.devices.map device.getcount).sum := by
  unfold entry.getcount
  rw [foldl_add_eq_sum]; simp

theorem device_getcount_add (d : device) (st : stat) :
    (d.add st).getcount = d.getcount + 1 := by
  simp [device.add, device.getcount]

theorem addRev_some (st : stat) : ∀ (l r : List device), entry.addRev st l = some r →
    (r.map device.getcount).sum = (l.map device.getcount).sum + 1 ∧ r.length = l.length := by
  intro l
  induction l with
  | nil => intro r h; simp [entry.addRev] at h
  | cons d ds ih =>
    intro r h
    unfold entry.addRev at h
    split_ifs at h with hd
    · simp only [Option.some.injEq] at h
      subst h
      simp [device_getcount_add]; omega
    · cases hr : entry.addRev st ds with
      | none => rw [hr] at h; simp at h
      | some r1 =>
        rw [hr] at h
        simp only [Option.map_some', Option.some.injEq] at h
        subst h
        have := ih r1 hr
        simp [this.1, this.2]; omega

theorem entry_getcount_add (e : entry) (st : stat) :
    (e.add st).getcount = e.getcount + 1 := by
  rw [entry_getcount_eq, entry_getcount_eq]
  unfold entry.add
  split
  · simp [device.add, device.mk_dev, device.getcount]
  · rename_i r hr
    have := (addRev_some st _ r hr).1
    simp only [List.map_reverse, List.sum_reverse] at this ⊢
    exact this

theorem entry_id_add (e : entry) (st : stat) : (e.add st).id = e.id := by
  unfold entry.add
  split <;> rfl

theorem entry_getcount_assign (fileid : List Nat) (st : stat) :
    (entry.assign fileid st).getcount = 1 := by
  unfold entry.assign
  rw [entry_getcount_add]
  rfl

theorem findFrom_range (cl : classifier) (x : List Nat) : ∀ (t : List entry) (i : Nat),
    findFrom cl x t i = -1 ∨
      ((i : Int) ≤ findFrom cl x t i ∧ findFrom cl x t i < (i : Int) + t.length) := by
  intro t
  induction t with
  | nil => intro i; left; rfl
  | cons e es ih =>
    intro i
    unfold findFrom
    split_ifs
    · right; simp
    · rcases ih (i + 1) with h | h
      · left; exact h
      · right
        simp only [List.length_cons]
        push_cast at h ⊢
        omega

theorem find_range (ft : freqtable) (x : List Nat) (cl : classifier) :
    find ft x cl = -1 ∨ (find ft x cl).toNat < ft.size ∧ find ft x cl ≠ -1 := by
  unfold find freqtable.size
  rcases findFrom_range cl x ft.table 0 with h | h
  · left; exact h
  · right; omega

theorem length_addAt (t : List entry) (pos : Nat) (st : stat) :
    (addAt t pos st).length = t.length := by
  unfold addAt
  split <;> simp

theorem countAt_addAt (t : List entry) (pos c : Nat) (st : stat) (hp : pos < t.length) :
    countAt (addAt t pos st) c = if c = pos then countAt t pos + 1 else countAt t c := by
  unfold addAt countAt
  rw [List.getElem?_eq_getElem hp]
  simp only [List.getElem?_set]
  by_cases h : c = pos
  · subst h; simp [hp, entry_getcount_add]
  · simp [h, Ne.symm h]

theorem countAt_append_lt (t : List entry) (x : entry) (c : Nat) (hc : c < t.length) :
    countAt (t ++ [x]) c = countAt t c := by
  unfold countAt
  rw [List.getElem?_append_left hc]

theorem heapButUp_addAt (t : List entry) (pos : Nat) (st : stat) (hp : pos < t.length)
    (H : heapInvariant t) : heapButUp (addAt t pos st) pos := by
  rw [heapInvariant_iff] at H
  constructor
  · intro c hc hcn hcp
    rw [length_addAt] at hcn
    rw [countAt_addAt t pos c st hp, countAt_addAt t pos _ st hp, if_neg hcp]
    have := H c hc hcn
    split_ifs with h
    · rw [h] at this; omega
    · exact this
  · intro hp0 c hcn hcp
    rw [length_addAt] at hcn
    rw [countAt_addAt t pos c st hp, countAt_addAt t pos _ st hp,
      if_neg (by omega : ¬ c = pos), if_neg (by omega : ¬ (pos - 1) / 2 = pos)]
    have h1 := H c (by omega) hcn
    have h2 := H pos hp0 hp
    rw [hcp] at h1
    omega

theorem heapButUp_append (t : List entry) (x : entry) (H : heapInvariant t) :
    heapButUp (t ++ [x]) t.length := by
  rw [heapInvariant_iff] at H
  constructor
  · intro c hc hcn hcp
    simp only [List.length_append, List.length_singleton] at hcn
    have hcl : c < t.length := by omega
    rw [countAt_append_lt t x c hcl, countAt_append_lt t x _ (by omega)]
    exact H c hc hcl
  · intro hp0 c hcn hcp
    simp only [List.length_append, List.length_singleton] at hcn
    omega

theorem insert_heap (ft : freqtable) (fileid : List Nat) (st : stat) (cl : classifier)
    (H : heapInvariant ft.table) : heapInvariant (ft.insert fileid st cl).table := by
  unfold freqtable.insert
  simp only []
  split_ifs with h
  · unfold bubbleUp
    simp only [List.length_append, List.length_singleton, Nat.add_sub_cancel]
    exact bubbleUpLoop_heap _ _ _ (le_refl _) (by simp) (heapButUp_append _ _ H)
  · rcases find_range ft fileid cl with h1 | ⟨h1, _⟩
    · exact absurd h1 h
    · unfold bubbleUp
      exact bubbleUpLoop_heap _ _ _ (le_refl _) (by rw [length_addAt]; exact h1)
        (heapButUp_addAt _ _ st h1 H)

theorem heapInvariant_nil : heapInvariant [] := by
  intro i c _ h
  simp at h

theorem insertAll_heap (obs : List Observation) : ∀ (ft : freqtable),
    heapInvariant ft.table → heapInvariant (insertAll ft obs).table := by
  induction obs with
  | nil => intro ft h; exact h
  | cons o os ih =>
    intro ft h
    unfold insertAll
    rw [List.foldl_cons]
    exact ih _ (insert_heap ft o.fileid o.st o.cl h)

theorem build_heap (obs : List Observation) : heapInvariant (build obs).table :=
  insertAll_heap obs _ heapInvariant_nil

theorem countAt_eq_of_getElem? (t : List entry) (c : Nat) (e : entry) (h : t[c]? = some e) :
    countAt t c = e.getcount := by
  unfold countAt; rw [h]

theorem countAt_le_root (t : List entry) (H : heapInvariant t) :
    ∀ c, c < t.length → countAt t c ≤ countAt t 0 := by
  rw [heapInvariant_iff] at H
  intro c
  induction c using Nat.strong_induction_on with
  | _ c ih =>
    intro hc
    by_cases h0 : c = 0
    · subst h0; exact le_refl _
    · have h1 := H c (by omega) hc
      have h2 := ih ((c - 1) / 2) (by omega) (by omega)
      omega

theorem getcount_le_head (e : entry) (rest : List entry) (H : heapInvariant (e :: rest)) :
    ∀ g ∈ e :: rest, g.getcount ≤ e.getcount := by
  intro g hg
  obtain ⟨c, hc, hget⟩ := List.getElem_of_mem hg
  have h1 := countAt_le_root _ H c hc
  rw [countAt_eq_of_getElem? _ c g (by rw [List.getElem?_eq_getElem hc, hget]),
    countAt_eq_of_getElem? _ 0 e (by simp)] at h1
  exact h1

/-- The vector that `pop` hands to `trickleDown`: empty when the group popped was
the only one, otherwise the last group followed by all groups but the first and
the last. -/
theorem pop_table_eq (e : entry) (rest : List entry) :
    ((e :: rest).set 0 ((e :: rest).getLastD e)).dropLast =
      match rest.getLast? with
      | none => []
      | some last => last :: rest.dropLast := by
  rcases List.eq_nil_or_concat rest with h | ⟨init, last, h⟩
  · subst h; rfl
  · rw [List.concat_eq_append] at h
    subst h
    have h1 : (e :: (init ++ [last])).getLastD e = last := by
      rw [← List.cons_append, List.getLastD_concat]
    rw [h1]
    simp only [List.set_cons_zero, List.getLast?_concat, List.dropLast_concat]
    rw [← List.cons_append, List.dropLast_concat]

theorem countAt_cons_succ (x : entry) (l : List entry) (c : Nat) :
    countAt (x :: l) (c + 1) = countAt l c := by
  unfold countAt; simp

theorem countAt_dropLast (l : List entry) (c : Nat) (hc : c + 1 < l.length) :
    countAt l.dropLast c = countAt l c := by
  unfold countAt
  rw [List.getElem?_eq_getElem (by simp; omega), List.getElem?_eq_getElem (by omega)]
  simp

theorem heapButDown_pop (e last : entry) (rest : List entry)
    (H : heapInvariant (e :: rest)) : heapButDown (last :: rest.dropLast) 0 := by
  rw [heapInvariant_iff] at H
  constructor
  · intro c hc hcn hcp
    simp only [List.length_cons, List.length_dropLast] at hcn
    obtain ⟨c1, rfl⟩ : ∃ c1, c = c1 + 1 := ⟨c - 1, by omega⟩
    obtain ⟨q, hq⟩ : ∃ q, (c1 + 1 - 1) / 2 = q + 1 := ⟨(c1 + 1 - 1) / 2 - 1, by omega⟩
    have h := H (c1 + 1) hc (by simp only [List.length_cons]; omega)
    rw [hq] at h ⊢
    rw [countAt_cons_succ] at h ⊢
    rw [countAt_cons_succ] at h ⊢
    rw [countAt_dropLast _ _ (by omega), countAt_dropLast _ _ (by omega)]
    exact h
  · intro h0; omega

theorem pop_spec (e : entry) (rest : List entry) :
    ∃ ft1, pop { table := e :: rest } = Result.ok ft1 ∧ ft1.table.Perm rest ∧
      (heapInvariant (e :: rest) → heapInvariant ft1.table) := by
  refine ⟨_, rfl, ?_, ?_⟩
  · unfold trickleDown
    refine (trickleDownLoop_perm _ _ _ _).trans ?_
    simp only [pop_table_eq]
    rcases List.eq_nil_or_concat rest with h | ⟨init, last, h⟩
    · subst h; simp
    · rw [List.concat_eq_append] at h
      subst h
      simp only [List.getLast?_concat, List.dropLast_concat]
      exact (List.perm_append_singleton last init).symm
  · intro H
    unfold trickleDown
    simp only [pop_table_eq]
    rcases hl : rest.getLast? with _ | last
    · simp only [List.length_nil]
      exact heapInvariant_nil
    · exact trickleDownLoop_heap _ _ 0 (le_refl _) (heapButDown_pop e last rest H)

theorem pop_set_zero (e x : entry) (rest : List entry) :
    pop { table := (e :: rest).set 0 x } = pop { table := e :: rest } := by
  simp only [List.set_cons_zero]
  unfold pop
  simp only [pop_table_eq]

theorem popAllLoop_spec : ∀ (fuel : Nat) (ft : freqtable), ft.size ≤ fuel →
    heapInvariant ft.table →
    (popAllLoop fuel ft).Perm ft.table ∧
      (popAllLoop fuel ft).Pairwise (fun a b => b.getcount ≤ a.getcount) := by
  intro fuel
  induction fuel with
  | zero =>
    intro ft hs _
    have : ft.table = [] := List.eq_nil_of_length_eq_zero (by unfold freqtable.size at hs; omega)
    simp [popAllLoop, this]
  | succ fuel ih =>
    intro ft hs H
    obtain ⟨t⟩ := ft
    cases t with
    | nil => simp [popAllLoop, freqtable.empty]
    | cons e rest =>
      obtain ⟨ft1, hpop, hperm, hheap⟩ := pop_spec e rest
      have hlen : ft1.size ≤ fuel := by
        unfold freqtable.size at hs ⊢
        rw [hperm.length_eq]
        simp only [List.length_cons] at hs
        omega
      obtain ⟨ih1, ih2⟩ := ih ft1 hlen (hheap H)
      have hrun : popAllLoop (fuel + 1) { table := e :: rest } = e :: popAllLoop fuel ft1 := by
        rw [popAllLoop, hpop]
        simp [freqtable.empty, freqtable.top]
      rw [hrun]
      refine ⟨List.Perm.cons e (ih1.trans hperm), List.pairwise_cons.mpr ⟨?_, ih2⟩⟩
      intro g hg
      have hg1 : g ∈ rest := hperm.subset (ih1.subset hg)
      exact getcount_le_head e rest H g (List.mem_cons_of_mem e hg1)

theorem set_perm_cons_erase (l : List entry) (i : Nat) (h : i < l.length) (x : entry) :
    (l.set i x).Perm (x :: l.erase l[i]) := by
  rw [List.perm_iff_count]
  intro c
  rw [List.count_set _ _ _ _ h, List.count_cons, List.count_erase]

theorem bubbleUp_perm (ft : freqtable) (i : Nat) : (bubbleUp ft i).table.Perm ft.table :=
  bubbleUpLoop_perm _ _ _ _

theorem findFrom_none (cl : classifier) (x : List Nat) : ∀ (t : List entry) (i : Nat),
    findFrom cl x t i = -1 → ∀ e ∈ t, cl e.getid x = false := by
  intro t
  induction t with
  | nil => intro i _ e he; simp at he
  | cons a as ih =>
    intro i h e he
    unfold findFrom at h
    by_cases ha : cl a.getid x = true
    · rw [if_pos ha] at h; omega
    · rw [if_neg ha] at h
      rcases List.mem_cons.mp he with rfl | he
      · simpa using ha
      · exact ih (i + 1) h e he

theorem findFrom_some (cl : classifier) (x : List Nat) : ∀ (t : List entry) (i : Nat),
    findFrom cl x t i ≠ -1 →
    ∃ p, ∃ h : p < t.length, findFrom cl x t i = (i : Int) + p ∧ cl t[p].getid x = true ∧
      ∀ q, ∀ hq : q < p, cl (t[q]).getid x = false := by
  intro t
  induction t with
  | nil => intro i h; exact absurd rfl h
  | cons a as ih =>
    intro i h
    unfold findFrom at h ⊢
    split_ifs at h ⊢ with ha
    · exact ⟨0, by simp, by simp, by simpa using ha, fun q hq => absurd hq (by omega)⟩
    · obtain ⟨p, hp, h1, h2, h3⟩ := ih (i + 1) h
      refine ⟨p + 1, by simp; omega, by rw [h1]; push_cast; omega, by simpa using h2, ?_⟩
      intro q hq
      rcases q with _ | q
      · simpa using ha
      · simpa using h3 q (by omega)

theorem addAt_eq (t : List entry) (pos : Nat) (st : stat) (h : pos < t.length) :
    addAt t pos st = t.set pos (t[pos].add st) := by
  unfold addAt
  rw [List.getElem?_eq_getElem h]

/-- What one `insert` does to the groups, up to their order in the vector: either
one existing group `e`, the first that the classifier matches, is replaced by
`e.add st`, or no group matches and the new group `entry.assign fileid st` joins
the others. -/
theorem insert_perm (ft : freqtable) (fileid : List Nat) (st : stat) (cl : classifier) :
    (∃ e, e ∈ ft.table ∧ cl e.getid fileid = true ∧
        (ft.insert fileid st cl).table.Perm (e.add st :: ft.table.erase e)) ∨
    ((∀ e ∈ ft.table, cl e.getid fileid = false) ∧
        (ft.insert fileid st cl).table.Perm (entry.assign fileid st :: ft.table)) := by
  unfold freqtable.insert
  simp only []
  split_ifs with h
  · right
    refine ⟨findFrom_none cl fileid ft.table 0 h, (bubbleUp_perm _ _).trans ?_⟩
    exact List.perm_append_singleton _ _
  · left
    obtain ⟨p, hp, h1, h2, _⟩ := findFrom_some cl fileid ft.table 0 h
    have hpos : (find ft fileid cl).toNat = p := by
      unfold find; rw [h1]; simp
    rw [hpos]
    refine ⟨ft.table[p], List.getElem_mem hp, h2, (bubbleUp_perm _ _).trans ?_⟩
    rw [addAt_eq _ _ _ hp]
    exact set_perm_cons_erase _ _ hp _

theorem insert_total (ft : freqtable) (fileid : List Nat) (st : stat) (cl : classifier) :
    ((ft.insert fileid st cl).table.map entry.getcount).sum =
      (ft.table.map entry.getcount).sum + 1 := by
  rcases insert_perm ft fileid st cl with ⟨e, he, _, hperm⟩ | ⟨_, hperm⟩
  · rw [(hperm.map entry.getcount).sum_eq, ((List.perm_cons_erase he).map entry.getcount).sum_eq]
    simp only [List.map_cons, List.sum_cons, entry_getcount_add]
    omega
  · rw [(hperm.map entry.getcount).sum_eq]
    simp only [List.map_cons, List.sum_cons, entry_getcount_assign]
    omega

theorem insertAll_total (obs : List Observation) : ∀ (ft : freqtable),
    ((insertAll ft obs).table.map entry.getcount).sum =
      (ft.table.map entry.getcount).sum + obs.length := by
  induction obs with
  | nil => intro ft; rfl
  | cons o os ih =>
    intro ft
    unfold insertAll
    rw [List.foldl_cons]
    have := ih (ft.insert o.fileid o.st o.cl)
    unfold insertAll at this
    rw [this, insert_total]
    simp only [List.length_cons]
    omega

theorem charmap_sameUpToAsciiCase (a b : Nat) (h : sameUpToAsciiCase a b) :
    charmap a = charmap b := by
  rcases h with h | ⟨h1, h2, h3⟩ | ⟨h1, h2, h3⟩
  · rw [h]
  · subst h3; interval_cases a <;> rfl
  · subst h3; interval_cases b <;> rfl

theorem strcasecmp_eq_zero (s1 s2 : List Nat) (h : List.Forall₂ sameUpToAsciiCase s1 s2)
    (h1 : isCString s1) : strcasecmp s1 s2 = 0 := by
  induction h with
  | nil => simp [strcasecmp]
  | @cons a b l1 l2 hab _ ih =>
    have ha := h1 a (List.mem_cons_self _ _)
    unfold strcasecmp
    rw [if_neg]
    · exact ih (fun x hx => h1 x (List.mem_cons_of_mem _ hx))
    · simp only [List.headD_cons, not_or, not_not]
      exact ⟨by omega, charmap_sameUpToAsciiCase a b hab⟩

theorem strcmp_ne_zero (s1 s2 : List Nat) (h : List.Forall₂ sameUpToAsciiCase s1 s2)
    (h1 : isCString s1) (hne : s1 ≠ s2) : strcmp s1 s2 ≠ 0 := by
  induction h with
  | nil => exact absurd rfl hne
  | @cons a b l1 l2 hab _ ih =>
    have ha := h1 a (List.mem_cons_self _ _)
    unfold strcmp
    simp only [List.headD_cons, List.tail_cons]
    by_cases hae : a = b
    · subst hae
      rw [if_neg (by omega)]
      exact ih (fun x hx => h1 x (List.mem_cons_of_mem _ hx)) (fun h => hne (by rw [h]))
    · have hmod : a % 256 ≠ b % 256 := by
        rcases hab with h | ⟨_, _, _⟩ | ⟨_, _, _⟩
        · exact absurd h hae
        · omega
        · omega
      rw [if_pos (Or.inr hmod)]
      omega

theorem build_pair_matched (s1 s2 : List Nat) (st1 st2 : stat) (cl : classifier)
    (h : cl s1 s2 = true) :
    build [{ fileid := s1, st := st1, cl := cl }, { fileid := s2, st := st2, cl := cl }] =
      { table := [(entry.assign s1 st1).add st2] } := by
  have hid : (entry.assign s1 st1).getid = s1 := by
    unfold entry.assign entry.getid; rw [entry_id_add]
  simp [build, insertAll, freqtable.new, freqtable.insert, find, findFrom, bubbleUp,
    bubbleUpLoop, hid, h, addAt]

theorem build_pair_unmatched (s1 s2 : List Nat) (st1 st2 : stat) (cl : classifier)
    (h : cl s1 s2 = false) :
    build [{ fileid := s1, st := st1, cl := cl }, { fileid := s2, st := st2, cl := cl }] =
      { table := [entry.assign s1 st1, entry.assign s2 st2] } := by
  have hid : (entry.assign s1 st1).getid = s1 := by
    unfold entry.assign entry.getid; rw [entry_id_add]
  simp [build, insertAll, freqtable.new, freqtable.insert, find, findFrom, bubbleUp,
    bubbleUpLoop, hid, h, countAt, entry_getcount_assign, parent]

theorem drainLoop_eq_map : ∀ (fuel : Nat) (count_links : Bool) (ft : freqtable),
    drainLoop fuel count_links ft = (popAllLoop fuel ft).map (reportRow count_links) := by
  intro fuel
  induction fuel with
  | zero => intro _ _; rfl
  | succ fuel ih =>
    intro count_links ft
    obtain ⟨t⟩ := ft
    cases t with
    | nil => simp [drainLoop, popAllLoop, freqtable.empty]
    | cons e rest =>
      obtain ⟨ft1, hpop, _, _⟩ := pop_spec e rest
      have hrun : popAllLoop (fuel + 1) { table := e :: rest } = e :: popAllLoop fuel ft1 := by
        rw [popAllLoop, hpop]
        simp [freqtable.empty, freqtable.top]
      conv_lhs => unfold drainLoop
      simp only [freqtable.empty, freqtable.top, List.isEmpty_cons, Bool.false_eq_true,
        if_false, pop_set_zero, hpop]
      rw [hrun, List.map_cons, ih count_links ft1]
      rfl

theorem head?_reverse_append_of_all_eq (a : atom_t) (g : List atom_t) (h : ∀ x ∈ g, x = a) :
    ((a :: g).reverse).head? = some a := by
  rcases List.eq_nil_or_concat g with hg | ⟨init, last, hg⟩
  · subst hg; rfl
  · rw [List.concat_eq_append] at hg
    subst hg
    have : last = a := h last (by simp)
    subst this
    simp

theorem splitByLoop_heads : ∀ (l : List atom_t) (ag : atom_t) (g : List atom_t)
    (gs : List (List atom_t)), (∀ x ∈ g, x = ag) →
    (List.splitBy.loop (fun a b => a == b) l ag g gs).filterMap List.head? =
      gs.reverse.filterMap List.head? ++ ag :: device.uniqueFrom ag l := by
  intro l
  induction l with
  | nil =>
    intro ag g gs h
    unfold List.splitBy.loop
    rw [List.reverse_cons, List.filterMap_append]
    simp only [List.filterMap_cons, List.filterMap_nil, head?_reverse_append_of_all_eq ag g h,
      device.uniqueFrom]
  | cons a as ih =>
    intro ag g gs h
    unfold List.splitBy.loop
    by_cases hag : ag = a
    · subst hag
      simp only [beq_self_eq_true, device.uniqueFrom, if_true]
      exact ih ag (ag :: g) gs (by
        intro x hx
        rcases List.mem_cons.mp hx with rfl | hx
        · rfl
        · exact h x hx)
    · have hb : (ag == a) = false := by simpa using hag
      simp only [hb, device.uniqueFrom, if_neg hag]
      rw [ih a [] _ (by intro x hx; simp at hx)]
      rw [List.reverse_cons, List.filterMap_append]
      simp only [List.filterMap_cons, List.filterMap_nil, head?_reverse_append_of_all_eq ag g h,
        List.append_assoc, List.singleton_append]

theorem unique_eq_collapseRuns (l : List atom_t) : device.unique l = collapseRuns l := by
  cases l with
  | nil => rfl
  | cons a as =>
    unfold collapseRuns List.splitBy device.unique
    rw [splitByLoop_heads as a [] [] (by intro x hx; simp at hx)]
    rfl

theorem uniqueFrom_chain : ∀ (l : List atom_t) (a : atom_t),
    List.Chain (fun x y => x ≠ y) a (device.uniqueFrom a l) := by
  intro l
  induction l with
  | nil => intro a; exact List.Chain.nil
  | cons b t ih =>
    intro a
    unfold device.uniqueFrom
    split_ifs with h
    · exact ih a
    · exact List.Chain.cons h (ih b)

theorem uniqueFrom_sublist : ∀ (l : List atom_t) (a : atom_t),
    (device.uniqueFrom a l).Sublist l := by
  intro l
  induction l with
  | nil => intro a; exact List.Sublist.slnil
  | cons b t ih =>
    intro a
    unfold device.uniqueFrom
    split_ifs with h
    · exact (ih a).cons b
    · exact (ih b).cons₂ b

theorem unique_chain (l : List atom_t) : List.Chain' (fun x y => x ≠ y) (device.unique l) := by
  cases l with
  | nil => exact List.chain'_nil
  | cons a t => exact uniqueFrom_chain t a

theorem unique_sublist (l : List atom_t) : (device.unique l).Sublist l := by
  cases l with
  | nil => exact List.Sublist.slnil
  | cons a t => exact (uniqueFrom_sublist t a).cons₂ a

theorem uniqueFrom_idem : ∀ (l : List atom_t) (a : atom_t),
    device.uniqueFrom a (device.uniqueFrom a l) = device.uniqueFrom a l := by
  intro l
  induction l with
  | nil => intro a; rfl
  | cons b t ih =>
    intro a
    by_cases h : a = b
    · subst h
      simp only [device.uniqueFrom, if_true]
      exact ih a
    · simp only [device.uniqueFrom, if_neg h]
      rw [ih b]

theorem unique_idem (l : List atom_t) : device.unique (device.unique l) = device.unique l := by
  cases l with
  | nil => rfl
  | cons a t =>
    simp only [device.unique]
    rw [uniqueFrom_idem]

theorem device_remove_duplicates_idem (d : device) :
    d.remove_duplicates.remove_duplicates = d.remove_duplicates := by
  simp only [device.remove_duplicates, unique_idem]

theorem entry_remove_duplicates_idem (e : entry) :
    e.remove_duplicates.remove_duplicates = e.remove_duplicates := by
  simp only [entry.remove_duplicates, List.map_map]
  congr 1
  apply List.map_congr_left
  intro d _
  exact device_remove_duplicates_idem d

theorem insert_size_of_match (ft : freqtable) (fileid : List Nat) (st : stat) (cl : classifier)
    (h : ∃ g ∈ ft.table, cl g.getid fileid = true) :
    ∃ e, e ∈ ft.table ∧ cl e.getid fileid = true ∧
      (ft.insert fileid st cl).table.Perm (e.add st :: ft.table.erase e) := by
  rcases insert_perm ft fileid st cl with hfound | ⟨hnone, _⟩
  · exact hfound
  · obtain ⟨g, hg, hcl⟩ := h
    rw [hnone g hg] at hcl
    exact absurd hcl (by simp)

set_option maxRecDepth 20000 in
theorem charmap_lt : ∀ n, n < 256 → casein_charmap.getD n 0 = 0 → n = 0 := by
  decide

theorem charmap_eq_zero (u : Nat) : charmap u = 0 ↔ u % 256 = 0 := by
  unfold charmap
  constructor
  · exact charmap_lt (u % 256) (Nat.mod_lt _ (by omega))
  · intro h; rw [h]; rfl

theorem strcasecmp_symm : ∀ (s1 s2 : List Nat), strcasecmp s1 s2 = 0 → strcasecmp s2 s1 = 0 := by
  intro s1
  induction s1 with
  | nil =>
    intro s2 h
    unfold strcasecmp at h
    have h0 : charmap 0 = 0 := rfl
    have hz : charmap (s2.headD 0) = 0 := by rw [h0] at h; omega
    cases s2 with
    | nil => rfl
    | cons u t =>
      simp only [List.headD_cons] at hz
      unfold strcasecmp
      rw [if_pos (Or.inl ((charmap_eq_zero u).mp hz))]
      simp only [List.headD_nil, hz, h0]; rfl
  | cons u1 t1 ih =>
    intro s2 h
    unfold strcasecmp at h
    by_cases hc : u1 % 256 = 0 ∨ charmap u1 ≠ charmap (s2.headD 0)
    · rw [if_pos hc] at h
      have he : charmap u1 = charmap (s2.headD 0) := by omega
      have hu : u1 % 256 = 0 := by
        rcases hc with hc | hc
        · exact hc
        · exact absurd he hc
      have h1 : charmap u1 = 0 := (charmap_eq_zero u1).mpr hu
      cases s2 with
      | nil =>
        unfold strcasecmp
        simp only [List.headD_cons, h1]; rfl
      | cons h2 t2 =>
        simp only [List.headD_cons] at he
        have h2z : charmap h2 = 0 := by omega
        unfold strcasecmp
        rw [if_pos (Or.inl ((charmap_eq_zero h2).mp h2z))]
        simp only [List.headD_cons, h1, h2z]; rfl
    · rw [if_neg hc] at h
      simp only [not_or, not_not] at hc
      obtain ⟨hu, he⟩ := hc
      cases s2 with
      | nil =>
        simp only [List.headD_nil] at he
        have : charmap u1 = 0 := by rw [he]; rfl
        exact absurd ((charmap_eq_zero u1).mp this) hu
      | cons h2 t2 =>
        simp only [List.headD_cons] at he
        simp only [List.tail_cons] at h
        have hh2 : ¬ h2 % 256 = 0 := by
          intro hz
          have := (charmap_eq_zero h2).mpr hz
          rw [← he] at this
          exact hu ((charmap_eq_zero u1).mp this)
        unfold strcasecmp
        rw [if_neg (by simp only [List.headD_cons, not_or, not_not]; exact ⟨hh2, he.symm⟩)]
        simp only [List.tail_cons]
        exact ih t2 h

theorem strcasecmp_refl : ∀ (s : List Nat), strcasecmp s s = 0 := by
  intro s
  induction s with
  | nil => rfl
  | cons u t ih =>
    unfold strcasecmp
    simp only [List.headD_cons, List.tail_cons, ne_eq, not_true_eq_false, or_false]
    split_ifs
    · omega
    · exact ih

theorem strcmp_symm : ∀ (s1 s2 : List Nat), strcmp s1 s2 = 0 → strcmp s2 s1 = 0 := by
  intro s1
  induction s1 with
  | nil =>
    intro s2 h
    unfold strcmp at h
    cases s2 with
    | nil => rfl
    | cons u t =>
      simp only [List.headD_cons] at h
      unfold strcmp
      rw [if_pos (Or.inl (by omega))]
      simp only [List.headD_nil]; omega
  | cons u1 t1 ih =>
    intro s2 h
    unfold strcmp at h
    by_cases hc : u1 % 256 = 0 ∨ u1 % 256 ≠ s2.headD 0 % 256
    · rw [if_pos hc] at h
      have he : u1 % 256 = s2.headD 0 % 256 := by omega
      have hu : u1 % 256 = 0 := by
        rcases hc with hc | hc
        · exact hc
        · exact absurd he hc
      cases s2 with
      | nil =>
        unfold strcmp
        simp only [List.headD_cons]; omega
      | cons h2 t2 =>
        simp only [List.headD_cons] at he
        unfold strcmp
        rw [if_pos (Or.inl (by omega))]
        simp only [List.headD_cons]; omega
    · rw [if_neg hc] at h
      simp only [not_or, not_not] at hc
      obtain ⟨hu, he⟩ := hc
      cases s2 with
      | nil =>
        simp only [List.headD_nil] at he
        omega
      | cons h2 t2 =>
        simp only [List.headD_cons] at he
        simp only [List.tail_cons] at h
        unfold strcmp
        rw [if_neg (by simp only [List.headD_cons, not_or, not_not]; omega)]
        simp only [List.tail_cons]
        exact ih t2 h

theorem strcmp_refl : ∀ (s : List Nat), strcmp s s = 0 := by
  intro s
  induction s with
  | nil => rfl
  | cons u t ih =>
    unfold strcmp
    simp only [List.headD_cons, List.tail_cons, ne_eq, not_true_eq_false, or_false]
    split_ifs
    · omega
    · exact ih

theorem strcmp_eq_of_isCString : ∀ (s1 s2 : List Nat), isCString s1 → isCString s2 →
    strcmp s1 s2 = 0 → s1 = s2 := by
  intro s1
  induction s1 with
  | nil =>
    intro s2 _ h2 h
    cases s2 with
    | nil => rfl
    | cons u t =>
      have hu := h2 u (List.mem_cons_self _ _)
      unfold strcmp at h
      simp only [List.headD_cons] at h
      omega
  | cons u1 t1 ih =>
    intro s2 h1 h2 h
    have hu1 := h1 u1 (List.mem_cons_self _ _)
    unfold strcmp at h
    cases s2 with
    | nil =>
      simp only [List.headD_nil] at h
      rw [if_pos (Or.inr (by omega))] at h
      omega
    | cons u2 t2 =>
      have hu2 := h2 u2 (List.mem_cons_self _ _)
      simp only [List.headD_cons, List.tail_cons] at h
      by_cases he : u1 = u2
      · subst he
        rw [if_neg (by omega)] at h
        rw [ih t2 (fun x hx => h1 x (List.mem_cons_of_mem _ hx))
          (fun x hx => h2 x (List.mem_cons_of_mem _ hx)) h]
      · rw [if_pos (Or.inr (by omega))] at h
        omega

theorem classifierOf_symm (ci : Bool) (a b : List Nat) (h : classifierOf ci a b = true) :
    classifierOf ci b a = true := by
  cases ci
  · simp only [classifierOf, Bool.false_eq_true, if_false, binary_classifier, beq_iff_eq] at h ⊢
    exact strcmp_symm a b h
  · simp only [classifierOf, if_true, case_insensitive_classifier, beq_iff_eq] at h ⊢
    exact strcasecmp_symm a b h

theorem classifierOf_refl (ci : Bool) (a : List Nat) : classifierOf ci a a = true := by
  cases ci
  · simp only [classifierOf, Bool.false_eq_true, if_false, binary_classifier, beq_iff_eq]
    exact strcmp_refl a
  · simp only [classifierOf, if_true, case_insensitive_classifier, beq_iff_eq]
    exact strcasecmp_refl a

theorem insert_pairwise (cl : classifier) (hsym : ∀ a b, cl a b = true → cl b a = true)
    (ft : freqtable) (fileid : List Nat) (st : stat)
    (H : ft.table.Pairwise
      (fun a b => cl a.getid b.getid = false ∧ cl b.getid a.getid = false)) :
    (ft.insert fileid st cl).table.Pairwise
      (fun a b => cl a.getid b.getid = false ∧ cl b.getid a.getid = false) := by
  have S : ∀ {x y : entry}, (cl x.getid y.getid = false ∧ cl y.getid x.getid = false) →
      (cl y.getid x.getid = false ∧ cl x.getid y.getid = false) := fun h => ⟨h.2, h.1⟩
  rcases insert_perm ft fileid st cl with ⟨e, he, _, hperm⟩ | ⟨hnone, hperm⟩
  · rw [hperm.pairwise_iff S]
    have H1 := ((List.perm_cons_erase he).pairwise_iff S).mp H
    rw [List.pairwise_cons] at H1 ⊢
    refine ⟨?_, H1.2⟩
    intro x hx
    have hid : (e.add st).getid = e.getid := entry_id_add e st
    rw [hid]
    exact H1.1 x hx
  · rw [hperm.pairwise_iff S, List.pairwise_cons]
    refine ⟨?_, H⟩
    intro x hx
    have hid : (entry.assign fileid st).getid = fileid := entry_id_add _ st
    rw [hid]
    have h1 := hnone x hx
    refine ⟨?_, h1⟩
    cases h2 : cl fileid x.getid with
    | false => rfl
    | true => rw [hsym _ _ h2] at h1; exact absurd h1 (by simp)

theorem insertAll_cons (ft : freqtable) (o : Observation) (os : List Observation) :
    insertAll ft (o :: os) = insertAll (ft.insert o.fileid o.st o.cl) os := rfl

theorem observeEach_cons (c : Bool × List Nat × stat) (cs : List (Bool × List Nat × stat)) :
    observeEach (c :: cs) =
      { fileid := c.2.1, st := c.2.2, cl := classifierOf c.1 } :: observeEach cs := rfl

theorem observe_cons (ci : Bool) (f : List Nat × stat) (fs : List (List Nat × stat)) :
    observe ci (f :: fs) = { fileid := f.1, st := f.2, cl := classifierOf ci } :: observe ci fs :=
  rfl

theorem insertAll_observe_pairwise (ci : Bool) (files : List (List Nat × stat)) :
    ∀ ft : freqtable,
    ft.table.Pairwise (fun a b => classifierOf ci a.getid b.getid = false ∧
      classifierOf ci b.getid a.getid = false) →
    (insertAll ft (observe ci files)).table.Pairwise
      (fun a b => classifierOf ci a.getid b.getid = false ∧
        classifierOf ci b.getid a.getid = false) := by
  induction files with
  | nil => intro ft h; exact h
  | cons f fs ih =>
    intro ft h
    rw [observe_cons, insertAll_cons]
    exact ih _ (insert_pairwise _ (classifierOf_symm ci) ft f.1 f.2 h)

theorem insert_ids_perm (ft : freqtable) (fileid : List Nat) (st : stat) (cl : classifier) :
    ((∃ e ∈ ft.table, cl e.getid fileid = true) ∧
      ((ft.insert fileid st cl).table.map entry.getid).Perm (ft.table.map entry.getid)) ∨
    ((∀ e ∈ ft.table, cl e.getid fileid = false) ∧
      ((ft.insert fileid st cl).table.map entry.getid).Perm
        (fileid :: ft.table.map entry.getid)) := by
  rcases insert_perm ft fileid st cl with ⟨e, he, hcl, hperm⟩ | ⟨hnone, hperm⟩
  · left
    refine ⟨⟨e, he, hcl⟩, (hperm.map entry.getid).trans ?_⟩
    have hid : (e.add st).getid = e.getid := entry_id_add e st
    rw [List.map_cons, hid, ← List.map_cons]
    exact ((List.perm_cons_erase he).map entry.getid).symm
  · right
    refine ⟨hnone, ?_⟩
    have hid : (entry.assign fileid st).getid = fileid := entry_id_add _ st
    have := hperm.map entry.getid
    rwa [List.map_cons, hid] at this

theorem insertAll_observeEach_ids (calls : List (Bool × List Nat × stat)) :
    ∀ (ft : freqtable) (seen : List (List Nat)),
    (ft.table.map entry.getid).Nodup → (∀ s ∈ ft.table.map entry.getid, s ∈ seen) →
    ((insertAll ft (observeEach calls)).table.map entry.getid).Nodup ∧
      ∀ s ∈ (insertAll ft (observeEach calls)).table.map entry.getid,
        s ∈ seen ++ calls.map (fun c => c.2.1) := by
  induction calls with
  | nil =>
    intro ft seen h1 h2
    refine ⟨h1, fun s hs => ?_⟩
    rw [List.map_nil, List.append_nil]
    exact h2 s hs
  | cons c cs ih =>
    intro ft seen h1 h2
    rw [observeEach_cons, insertAll_cons, List.map_cons]
    have step : ((ft.insert c.2.1 c.2.2 (classifierOf c.1)).table.map entry.getid).Nodup ∧
        ∀ s ∈ (ft.insert c.2.1 c.2.2 (classifierOf c.1)).table.map entry.getid,
          s ∈ seen ++ [c.2.1] := by
      rcases insert_ids_perm ft c.2.1 c.2.2 (classifierOf c.1) with ⟨_, hp⟩ | ⟨hnone, hp⟩
      · refine ⟨hp.nodup_iff.mpr h1, fun s hs => ?_⟩
        exact List.mem_append_left _ (h2 s (hp.subset hs))
      · refine ⟨hp.nodup_iff.mpr (List.nodup_cons.mpr ⟨?_, h1⟩), fun s hs => ?_⟩
        · intro hmem
          obtain ⟨e, he, hid⟩ := List.mem_map.mp hmem
          have := hnone e he
          rw [hid, classifierOf_refl] at this
          exact absurd this (by simp)
        · rcases List.mem_cons.mp (hp.subset hs) with h | h
          · rw [h]; simp
          · exact List.mem_append_left _ (h2 s h)
    have := ih (ft.insert c.2.1 c.2.2 (classifierOf c.1)) (seen ++ [c.2.1]) step.1 step.2
    rw [List.append_assoc, List.singleton_append] at this
    exact this

theorem insertAll_observe_exact_ids (files : List (List Nat × stat)) :
    ∀ (ft : freqtable) (seen : List (List Nat)),
    (∀ f ∈ files, isCString f.1) → (∀ s ∈ seen, isCString s) →
    (∀ s, s ∈ ft.table.map entry.getid ↔ s ∈ seen) →
    ∀ s, s ∈ (insertAll ft (observe false files)).table.map entry.getid ↔
      s ∈ seen ++ files.map (fun f => f.1) := by
  induction files with
  | nil =>
    intro ft seen _ _ h s
    rw [List.map_nil, List.append_nil]
    exact h s
  | cons f fs ih =>
    intro ft seen hf hseen h
    rw [observe_cons, insertAll_cons, List.map_cons]
    have hfc : isCString f.1 := hf f (List.mem_cons_self _ _)
    have step : ∀ s, s ∈ (ft.insert f.1 f.2 (classifierOf false)).table.map entry.getid ↔
        s ∈ seen ++ [f.1] := by
      intro s
      rcases insert_ids_perm ft f.1 f.2 (classifierOf false) with ⟨⟨e, he, hcl⟩, hp⟩ | ⟨_, hp⟩
      · have heid : e.getid ∈ ft.table.map entry.getid := List.mem_map_of_mem _ he
        have hec : isCString e.getid := hseen _ ((h _).mp heid)
        simp only [classifierOf, Bool.false_eq_true, if_false, binary_classifier,
          beq_iff_eq] at hcl
        have heq : e.getid = f.1 := strcmp_eq_of_isCString _ _ hec hfc hcl
        rw [hp.mem_iff, List.mem_append, List.mem_singleton, h s]
        constructor
        · intro hs; exact Or.inl hs
        · rintro (hs | hs)
          · exact hs
          · rw [hs, ← heq]; exact (h _).mp heid
      · rw [hp.mem_iff, List.mem_cons, List.mem_append, List.mem_singleton, h s]
        exact or_comm
    have := ih (ft.insert f.1 f.2 (classifierOf false)) (seen ++ [f.1])
      (fun g hg => hf g (List.mem_cons_of_mem _ hg))
      (by
        intro s hs
        rcases List.mem_append.mp hs with hs | hs
        · exact hseen s hs
        · rw [List.mem_singleton.mp hs]; exact hfc)
      step
    intro s
    have hs := this s
    rw [List.append_assoc, List.singleton_append] at hs
    exact hs

theorem observe_eq_observeEach (ci : Bool) (files : List (List Nat × stat)) :
    observe ci files = observeEach (files.map (fun f => (ci, f.1, f.2))) := by
  simp [observe, observeEach, List.map_map, Function.comp]

theorem addRev_none (st : stat) : ∀ (l : List device),
    (∀ d ∈ l, st.st_dev ≠ d.getdevice) → entry.addRev st l = none := by
  intro l
  induction l with
  | nil => intro _; rfl
  | cons d ds ih =>
    intro h
    unfold entry.addRev
    rw [if_neg (h d (List.mem_cons_self _ _)), ih (fun x hx => h x (List.mem_cons_of_mem _ hx))]
    rfl

theorem addRev_map (st : stat) : ∀ (l : List device),
    (l.map device.getdevice).Nodup → st.st_dev ∈ l.map device.getdevice →
    entry.addRev st l =
      some (l.map (fun d => if st.st_dev = d.getdevice then d.add st else d)) := by
  intro l
  induction l with
  | nil => intro _ h; simp at h
  | cons d ds ih =>
    intro hnd hmem
    rw [List.map_cons, List.nodup_cons] at hnd
    unfold entry.addRev
    by_cases hd : st.st_dev = d.getdevice
    · rw [if_pos hd]
      have hrest : ds.map (fun x => if st.st_dev = x.getdevice then x.add st else x) = ds := by
        conv_rhs => rw [← List.map_id ds]
        apply List.map_congr_left
        intro x hx
        have : st.st_dev ≠ x.getdevice := by
          intro hx2
          exact hnd.1 (by rw [← hd, hx2]; exact List.mem_map_of_mem _ hx)
        rw [if_neg this]; rfl
      rw [List.map_cons, if_pos hd, hrest]
    · rw [if_neg hd]
      have hmem2 : st.st_dev ∈ ds.map device.getdevice := by
        rw [List.map_cons, List.mem_cons] at hmem
        rcases hmem with h | h
        · exact absurd h hd
        · exact h
      rw [ih hnd.2 hmem2, List.map_cons, if_neg hd]
      rfl

theorem entry_add_devices (e : entry) (st : stat)
    (hnd : (e.devices.map device.getdevice).Nodup) :
    (e.add st).devices =
      if st.st_dev ∈ e.devices.map device.getdevice then
        e.devices.map (fun d => if st.st_dev = d.getdevice then d.add st else d)
      else e.devices ++ [(device.mk_dev st.st_dev).add st] := by
  unfold entry.add
  split_ifs with h
  · rw [addRev_map st e.devices.reverse (by rw [List.map_reverse]; exact List.nodup_reverse.mpr hnd)
      (by rw [List.map_reverse]; exact List.mem_reverse.mpr h)]
    simp only [List.map_reverse, List.reverse_reverse]
  · rw [addRev_none st e.devices.reverse (by
      intro d hd hd2
      exact h (by rw [hd2]; exact List.mem_map_of_mem _ (List.mem_reverse.mp hd)))]

theorem groupOf_append (fileid : List Nat) (sts : List stat) (st : stat) :
    groupOf fileid (sts ++ [st]) = (groupOf fileid sts).add st := by
  unfold groupOf
  rw [List.foldl_append]
  rfl

/-- The buckets of a group built by `add` calls: one bucket per device seen, each
holding, in order of arrival, the pairs of the observations made on its
device. -/
theorem groupOf_buckets (fileid : List Nat) (sts : List stat) :
    ((groupOf fileid sts).devices.map device.getdevice).Nodup ∧
    (∀ d ∈ (groupOf fileid sts).devices,
      d.getdevice ∈ sts.map (fun s => s.st_dev) ∧
      d.metadata =
        (sts.filter (fun s => s.st_dev = d.getdevice)).map (fun s => (s.st_ino, s.st_size))) ∧
    (∀ s ∈ sts, s.st_dev ∈ (groupOf fileid sts).devices.map device.getdevice) := by
  induction sts using List.reverseRecOn with
  | nil => simp [groupOf]
  | append_singleton sts st ih =>
    obtain ⟨hnd, hb, hs⟩ := ih
    rw [groupOf_append, entry_add_devices _ st hnd]
    split_ifs with hmem
    · have hids : ((groupOf fileid sts).devices.map
          (fun d => if st.st_dev = d.getdevice then d.add st else d)).map device.getdevice =
          (groupOf fileid sts).devices.map device.getdevice := by
        rw [List.map_map]
        apply List.map_congr_left
        intro d _
        simp only [Function.comp]
        split_ifs <;> rfl
      refine ⟨by rw [hids]; exact hnd, ?_, ?_⟩
      · intro d' hd'
        obtain ⟨d, hd, rfl⟩ := List.mem_map.mp hd'
        obtain ⟨h1, h2⟩ := hb d hd
        by_cases hm : st.st_dev = d.getdevice
        · rw [if_pos hm]
          have hg : (d.add st).getdevice = d.getdevice := rfl
          have hmd : (d.add st).metadata = d.metadata ++ [(st.st_ino, st.st_size)] := rfl
          rw [hg, hmd]
          refine ⟨by rw [List.map_append]; exact List.mem_append_left _ h1, ?_⟩
          rw [List.filter_append, List.map_append, ← h2]
          simp [hm]
        · rw [if_neg hm]
          refine ⟨by rw [List.map_append]; exact List.mem_append_left _ h1, ?_⟩
          rw [List.filter_append, List.map_append, ← h2]
          simp [hm]
      · intro s hs2
        rw [hids]
        rcases List.mem_append.mp hs2 with h | h
        · exact hs s h
        · rw [List.mem_singleton.mp h]; exact hmem
    · refine ⟨?_, ?_, ?_⟩
      · rw [List.map_append, List.nodup_append]
        refine ⟨hnd, by simp, ?_⟩
        intro a ha hb2
        simp only [List.map_cons, List.map_nil, List.mem_singleton] at hb2
        subst hb2
        exact hmem ha
      · intro d hd
        rcases List.mem_append.mp hd with h | h
        · obtain ⟨h1, h2⟩ := hb d h
          have hm : st.st_dev ≠ d.getdevice := by
            intro hm; exact hmem (by rw [hm]; exact List.mem_map_of_mem _ h)
          refine ⟨by rw [List.map_append]; exact List.mem_append_left _ h1, ?_⟩
          rw [List.filter_append, List.map_append, ← h2]
          simp [hm]
        · rw [List.mem_singleton.mp h]
          have hg : ((device.mk_dev st.st_dev).add st).getdevice = st.st_dev := rfl
          have hmd : ((device.mk_dev st.st_dev).add st).metadata = [(st.st_ino, st.st_size)] :=
            rfl
          rw [hg, hmd]
          refine ⟨by simp, ?_⟩
          have hnone : sts.filter (fun s => s.st_dev = st.st_dev) = [] := by
            rw [List.filter_eq_nil_iff]
            intro s hs2 hs3
            have := hs s hs2
            rw [of_decide_eq_true hs3] at this
            exact hmem this
          simp [List.filter_append, hnone]
      · intro s hs2
        rw [List.map_append]
        rcases List.mem_append.mp hs2 with h | h
        · exact List.mem_append_left _ (hs s h)
        · rw [List.mem_singleton.mp h]
          exact List.mem_append_right _ (by simp [device.add, device.mk_dev, device.getdevice])

theorem wrap64_eq (x : Int) (h1 : -9223372036854775808 ≤ x) (h2 : x < 9223372036854775808) :
    wrap64 x = x := by
  unfold wrap64; omega

theorem map_sum_nonneg {α : Type} (f : α → Int) (l : List α) (h : ∀ x ∈ l, 0 ≤ f x) :
    0 ≤ (l.map f).sum := by
  induction l with
  | nil => exact le_refl _
  | cons a t ih =>
    have h1 := ih (fun x hx => h x (List.mem_cons_of_mem _ hx))
    have h2 := h a (List.mem_cons_self _ _)
    simp only [List.map_cons, List.sum_cons]
    omega

theorem mem_le_map_sum {α : Type} (f : α → Int) (l : List α) (h : ∀ x ∈ l, 0 ≤ f x) :
    ∀ x ∈ l, f x ≤ (l.map f).sum := by
  induction l with
  | nil => intro x hx; simp at hx
  | cons a t ih =>
    intro x hx
    have h1 := map_sum_nonneg f t (fun y hy => h y (List.mem_cons_of_mem _ hy))
    have h2 := h a (List.mem_cons_self _ _)
    simp only [List.map_cons, List.sum_cons]
    rcases List.mem_cons.mp hx with rfl | hx
    · omega
    · have := ih (fun y hy => h y (List.mem_cons_of_mem _ hy)) x hx
      omega

/-- A loop of `off_t` additions of non-negative terms computes the exact sum as
long as that sum is below `2^63`. -/
theorem foldl_wrap_eq_sum {α : Type} (f : α → Int) : ∀ (l : List α) (a : Int),
    (∀ x ∈ l, 0 ≤ f x) → 0 ≤ a → a + (l.map f).sum < 9223372036854775808 →
    l.foldl (fun c d => wrap64 (c + f d)) a = a + (l.map f).sum := by
  intro l
  induction l with
  | nil => intro a _ _ _; simp
  | cons x xs ih =>
    intro a hpos ha hlt
    have hx := hpos x (List.mem_cons_self _ _)
    have hxs := map_sum_nonneg f xs (fun y hy => hpos y (List.mem_cons_of_mem _ hy))
    simp only [List.map_cons, List.sum_cons] at hlt
    rw [List.foldl_cons, wrap64_eq (a + f x) (by omega) (by omega),
      ih (a + f x) (fun y hy => hpos y (List.mem_cons_of_mem _ hy)) (by omega) (by omega)]
    simp only [List.map_cons, List.sum_cons]
    omega

theorem device_getbytes_eq (d : device) (hpos : ∀ a ∈ d.metadata, 0 ≤ a.2)
    (hlt : bucketSum d < 9223372036854775808) : d.getbytes = bucketSum d := by
  unfold device.getbytes
  unfold bucketSum at hlt ⊢
  rw [foldl_wrap_eq_sum (fun a : atom_t => a.2) d.metadata 0 hpos (le_refl _) (by omega)]
  omega

theorem bucketSum_nonneg (d : device) (hpos : ∀ a ∈ d.metadata, 0 ≤ a.2) : 0 ≤ bucketSum d :=
  map_sum_nonneg _ _ hpos

theorem entry_getbytes_eq (e : entry) (hpos : ∀ d ∈ e.devices, ∀ a ∈ d.metadata, 0 ≤ a.2)
    (hlt : groupSum e < 9223372036854775808) : e.getbytes = groupSum e := by
  have hb : ∀ d ∈ e.devices, d.getbytes = bucketSum d := by
    intro d hd
    have hle := mem_le_map_sum bucketSum e.devices
      (fun x hx => bucketSum_nonneg x (hpos x hx)) d hd
    exact device_getbytes_eq d (hpos d hd) (by unfold groupSum at hlt; omega)
  have hmap : e.devices.map device.getbytes = e.devices.map bucketSum :=
    List.map_congr_left hb
  unfold entry.getbytes
  rw [foldl_wrap_eq_sum device.getbytes e.devices 0
    (fun d hd => by rw [hb d hd]; exact bucketSum_nonneg d (hpos d hd)) (le_refl _)
    (by rw [hmap]; unfold groupSum at hlt; omega)]
  rw [hmap]
  unfold groupSum
  omega

theorem bucketSum_add (d : device) (st : stat) :
    bucketSum (d.add st) = bucketSum d + st.st_size := by
  simp [bucketSum, device.add]

theorem addRev_some_bytes (st : stat) : ∀ (l r : List device), entry.addRev st l = some r →
    (r.map bucketSum).sum = (l.map bucketSum).sum + st.st_size := by
  intro l
  induction l with
  | nil => intro r h; simp [entry.addRev] at h
  | cons d ds ih =>
    intro r h
    unfold entry.addRev at h
    split_ifs at h with hd
    · simp only [Option.some.injEq] at h
      subst h
      simp only [List.map_cons, List.sum_cons, bucketSum_add]
      omega
    · cases hr : entry.addRev st ds with
      | none => rw [hr] at h; simp at h
      | some r1 =>
        rw [hr] at h
        simp only [Option.map_some', Option.some.injEq] at h
        subst h
        have := ih r1 hr
        simp only [List.map_cons, List.sum_cons, this]
        omega

theorem groupSum_add (e : entry) (st : stat) :
    groupSum (e.add st) = groupSum e + st.st_size := by
  unfold groupSum entry.add
  split
  · simp [bucketSum, device.add, device.mk_dev]
  · rename_i r hr
    have := addRev_some_bytes st _ r hr
    simp only [List.map_reverse, List.sum_reverse] at this ⊢
    exact this

theorem groupSum_groupOf (fileid : List Nat) (sts : List stat) :
    groupSum (groupOf fileid sts) = (sts.map (fun s => s.st_size)).sum := by
  induction sts using List.reverseRecOn with
  | nil => rfl
  | append_singleton sts st ih =>
    rw [groupOf_append, groupSum_add, ih]
    simp

theorem sublist_sum_le {l1 l2 : List atom_t} (h : l1.Sublist l2) (hpos : ∀ a ∈ l2, 0 ≤ a.2) :
    (l1.map (fun a => a.2)).sum ≤ (l2.map (fun a => a.2)).sum := by
  induction h with
  | slnil => exact le_refl _
  | cons a _ ih =>
    have h1 := ih (fun x hx => hpos x (List.mem_cons_of_mem _ hx))
    have h2 := hpos a (List.mem_cons_self _ _)
    simp only [List.map_cons, List.sum_cons]
    omega
  | cons₂ a _ ih =>
    have h1 := ih (fun x hx => hpos x (List.mem_cons_of_mem _ hx))
    simp only [List.map_cons, List.sum_cons]
    omega

theorem map_sum_le_nat {α : Type} (f g : α → Nat) (l : List α) (h : ∀ x ∈ l, f x ≤ g x) :
    (l.map f).sum ≤ (l.map g).sum := by
  induction l with
  | nil => exact le_refl _
  | cons a t ih =>
    have h1 := ih (fun x hx => h x (List.mem_cons_of_mem _ hx))
    have h2 := h a (List.mem_cons_self _ _)
    simp only [List.map_cons, List.sum_cons]
    omega

theorem map_sum_le_int {α : Type} (f g : α → Int) (l : List α) (h : ∀ x ∈ l, f x ≤ g x) :
    (l.map f).sum ≤ (l.map g).sum := by
  induction l with
  | nil => exact le_refl _
  | cons a t ih =>
    have h1 := ih (fun x hx => h x (List.mem_cons_of_mem _ hx))
    have h2 := h a (List.mem_cons_self _ _)
    simp only [List.map_cons, List.sum_cons]
    omega

theorem length_le_sum_of_pos {α : Type} (f : α → Nat) (l : List α) (h : ∀ x ∈ l, 1 ≤ f x) :
    l.length ≤ (l.map f).sum := by
  induction l with
  | nil => exact le_refl _
  | cons a t ih =>
    have h1 := ih (fun x hx => h x (List.mem_cons_of_mem _ hx))
    have h2 := h a (List.mem_cons_self _ _)
    simp only [List.map_cons, List.sum_cons, List.length_cons]
    omega

theorem device_dedup_count_le (d : device) : d.remove_duplicates.getcount ≤ d.getcount :=
  (unique_sublist d.metadata).length_le

theorem device_dedup_count_pos (d : device) (h : 1 ≤ d.getcount) :
    1 ≤ d.remove_duplicates.getcount := by
  unfold device.getcount device.remove_duplicates at *
  cases hm : d.metadata with
  | nil => rw [hm] at h; simp at h
  | cons a t => simp [device.unique]

theorem bucketSum_dedup_le (d : device) (hpos : ∀ a ∈ d.metadata, 0 ≤ a.2) :
    bucketSum d.remove_duplicates ≤ bucketSum d :=
  sublist_sum_le (unique_sublist d.metadata) hpos

theorem dedup_metadata_nonneg (d : device) (hpos : ∀ a ∈ d.metadata, 0 ≤ a.2) :
    ∀ a ∈ d.remove_duplicates.metadata, 0 ≤ a.2 :=
  fun a ha => hpos a ((unique_sublist d.metadata).subset ha)

theorem groupSum_dedup_le (e : entry) (hpos : ∀ d ∈ e.devices, ∀ a ∈ d.metadata, 0 ≤ a.2) :
    groupSum e.remove_duplicates ≤ groupSum e := by
  unfold groupSum entry.remove_duplicates
  rw [List.map_map]
  exact map_sum_le_int _ _ _ (fun d hd => bucketSum_dedup_le d (hpos d hd))

/-- Dedup does not raise `getbytes()` of a group whose sizes are non-negative and
add up to less than `2^63`. -/
theorem entry_dedup_bytes_le (e : entry) (hpos : ∀ d ∈ e.devices, ∀ a ∈ d.metadata, 0 ≤ a.2)
    (hlt : groupSum e < 9223372036854775808) :
    e.remove_duplicates.getbytes ≤ e.getbytes := by
  have hle := groupSum_dedup_le e hpos
  have hpos2 : ∀ d ∈ e.remove_duplicates.devices, ∀ a ∈ d.metadata, 0 ≤ a.2 := by
    intro d hd
    obtain ⟨d0, hd0, rfl⟩ := List.mem_map.mp hd
    exact dedup_metadata_nonneg d0 (hpos d0 hd0)
  rw [entry_getbytes_eq e hpos hlt, entry_getbytes_eq e.remove_duplicates hpos2 (by omega)]
  exact hle

theorem groupOf_bucket_facts (fileid : List Nat) (sts : List stat)
    (hsz : ∀ s ∈ sts, 0 ≤ s.st_size) :
    ∀ d ∈ (groupOf fileid sts).devices, 1 ≤ d.getcount ∧ ∀ a ∈ d.metadata, 0 ≤ a.2 := by
  intro d hd
  obtain ⟨h1, h2⟩ := (groupOf_buckets fileid sts).2.1 d hd
  constructor
  · obtain ⟨s, hs, hs2⟩ := List.mem_map.mp h1
    have hmem : (s.st_ino, s.st_size) ∈ d.metadata := by
      rw [h2]
      exact List.mem_map_of_mem _ (List.mem_filter.mpr ⟨hs, by simpa using hs2⟩)
    unfold device.getcount
    exact List.length_pos_of_mem hmem
  · intro a ha
    rw [h2] at ha
    obtain ⟨s, hs, rfl⟩ := List.mem_map.mp ha
    exact hsz s (List.mem_filter.mp hs).1

theorem bubbleUpRun_spec : ∀ (fuel : Nat) (t : List entry) (i : Nat),
    i ≤ fuel → i < t.length →
    ∃ acc, bubbleUpRun (fuel + 1) t i (parent i) =
        some (bubbleUpLoop fuel t i (parent i), acc) ∧
      ∀ x ∈ acc, x < t.length := by
  intro fuel
  induction fuel with
  | zero =>
    intro t i hi _
    have h0 : i = 0 := by omega
    subst h0
    exact ⟨[], by simp [bubbleUpRun, bubbleUpLoop], by simp⟩
  | succ fuel ih =>
    intro t i hi hlen
    unfold bubbleUpRun bubbleUpLoop
    by_cases hpos : i > 0
    · rw [if_pos hpos]
      have hp : parent i = (i - 1) / 2 := parent_pos hpos
      have hplt : parent i < t.length := by rw [hp]; omega
      by_cases hgt : countAt t i > countAt t (parent i)
      · rw [if_pos hgt, if_pos ⟨hpos, hgt⟩]
        obtain ⟨acc, hrun, hacc⟩ := ih (swap t i (parent i)) (parent i)
          (by rw [hp]; omega) (by rw [length_swap]; exact hplt)
        rw [hrun]
        refine ⟨i :: parent i :: i :: parent i :: acc, rfl, ?_⟩
        intro x hx
        simp only [List.mem_cons] at hx
        rcases hx with h | h | h | h | h
        · omega
        · omega
        · omega
        · omega
        · have := hacc x h
          rwa [length_swap] at this
      · rw [if_neg hgt, if_neg (fun h => hgt h.2)]
        refine ⟨[i, parent i], rfl, ?_⟩
        intro x hx
        simp only [List.mem_cons, List.mem_singleton, List.not_mem_nil, or_false] at hx
        rcases hx with h | h <;> omega
    · rw [if_neg hpos, if_neg (fun h => hpos h.1)]
      exact ⟨[], rfl, by simp⟩

theorem trickleDownRun_spec : ∀ (fuel : Nat) (t : List entry) (i : Nat),
    t.length - i ≤ fuel →
    ∃ acc, trickleDownRun (fuel + 1) t.length t i =
        some (trickleDownLoop fuel t.length t i, acc) ∧
      ∀ x ∈ acc, x < t.length := by
  intro fuel
  induction fuel with
  | zero =>
    intro t i hi
    refine ⟨[], ?_, by simp⟩
    have hr : ¬ 2 * i + 2 < t.length := by omega
    have hl : ¬ 2 * i + 1 < t.length := by omega
    unfold trickleDownRun trickleDownLoop
    simp only [left, right, hr, hl, if_false]
  | succ fuel ih =>
    intro t i hi
    have step : ∀ j, i < j → j < t.length →
        ∃ acc, trickleDownRun (fuel + 1) t.length (swap t i j) j =
          some (trickleDownLoop fuel t.length (swap t i j) j, acc) ∧
          ∀ x ∈ acc, x < t.length := by
      intro j hij hj
      have := ih (swap t i j) j (by rw [length_swap]; omega)
      rwa [length_swap] at this
    unfold trickleDownRun trickleDownLoop
    simp only [left, right]
    by_cases hr : 2 * i + 2 < t.length
    · have hl : 2 * i + 1 < t.length := by omega
      by_cases hgr : countAt t (2 * i + 2) > countAt t i
      · by_cases hlr : countAt t (2 * i + 1) > countAt t (2 * i + 2)
        · obtain ⟨acc, hrun, hacc⟩ := step (2 * i + 1) (by omega) hl
          simp only [hr, hgr, hlr, if_true, and_self, hrun]
          refine ⟨_, rfl, ?_⟩
          intro x hx
          simp only [List.mem_cons] at hx
          rcases hx with h | h | h | h | h | h | h
          · omega
          · omega
          · omega
          · omega
          · omega
          · omega
          · exact hacc x h
        · obtain ⟨acc, hrun, hacc⟩ := step (2 * i + 2) (by omega) hr
          simp only [hr, hgr, hlr, if_true, if_false, and_self, hrun]
          refine ⟨_, rfl, ?_⟩
          intro x hx
          simp only [List.mem_cons] at hx
          rcases hx with h | h | h | h | h | h | h
          · omega
          · omega
          · omega
          · omega
          · omega
          · omega
          · exact hacc x h
      · by_cases hgl : countAt t (2 * i + 1) > countAt t i
        · obtain ⟨acc, hrun, hacc⟩ := step (2 * i + 1) (by omega) hl
          simp only [hr, hl, hgr, hgl, if_true, if_false, and_self, and_false, hrun]
          refine ⟨_, rfl, ?_⟩
          intro x hx
          simp only [List.mem_cons] at hx
          rcases hx with h | h | h | h | h | h | h
          · omega
          · omega
          · omega
          · omega
          · omega
          · omega
          · exact hacc x h
        · simp only [hr, hl, hgr, hgl, if_true, if_false, and_false]
          refine ⟨_, rfl, ?_⟩
          intro x hx
          simp only [List.mem_cons, List.mem_singleton, List.not_mem_nil, or_false] at hx
          rcases hx with h | h | h | h <;> omega
    · by_cases hl : 2 * i + 1 < t.length
      · by_cases hgl : countAt t (2 * i + 1) > countAt t i
        · obtain ⟨acc, hrun, hacc⟩ := step (2 * i + 1) (by omega) hl
          simp only [hr, hl, hgl, if_true, if_false, and_self, false_and, hrun]
          refine ⟨_, rfl, ?_⟩
          intro x hx
          simp only [List.mem_cons] at hx
          rcases hx with h | h | h | h | h
          · omega
          · omega
          · omega
          · omega
          · exact hacc x h
        · simp only [hr, hl, hgl, if_true, if_false, and_false, false_and]
          refine ⟨_, rfl, ?_⟩
          intro x hx
          simp only [List.mem_cons, List.mem_singleton, List.not_mem_nil, or_false] at hx
          rcases hx with h | h <;> omega
      · simp only [hr, hl, if_false, false_and]
        exact ⟨[], rfl, by simp⟩

/-- C1 (heap invariant).  After any sequence of `insert` calls on an empty table,
with any identifiers, devices, inodes, sizes and classifiers, every index `i` and
each child index `c` in `2i+1`, `2i+2` below `size()` satisfy
`getcount(table[i]) >= getcount(table[c])`. -/
theorem heap_invariant_after_inserts (obs : List Observation) (i c : Nat)
    (hc : c = 2 * i + 1 ∨ c = 2 * i + 2) (hlt : c < (build obs).size) :
    ∃ ei ec, (build obs).table[i]? = some ei ∧ (build obs).table[c]? = some ec ∧
      ec.getcount ≤ ei.getcount := by
  unfold freqtable.size at hlt
  have hi : i < (build obs).table.length := by omega
  refine ⟨(build obs).table[i], (build obs).table[c], List.getElem?_eq_getElem hi,
    List.getElem?_eq_getElem hlt, ?_⟩
  have h := build_heap obs i c hc hlt
  rwa [countAt_eq_of_getElem? _ c _ (List.getElem?_eq_getElem hlt),
    countAt_eq_of_getElem? _ i _ (List.getElem?_eq_getElem hi)] at h

/-- Witness of C1 on the three observations of the scenario: root `jpg` (count 2)
and its left child `png` (count 1). -/
theorem heap_invariant_after_inserts_witness :
    (1 = 2 * 0 + 1 ∨ 1 = 2 * 0 + 2) ∧ 1 < (build (scenarioObs binary_classifier)).size ∧
    ∃ ei ec, (build (scenarioObs binary_classifier)).table[0]? = some ei ∧
      (build (scenarioObs binary_classifier)).table[1]? = some ec ∧
      ec.getcount ≤ ei.getcount :=
  ⟨by decide, by decide,
    heap_invariant_after_inserts (scenarioObs binary_classifier) 0 1 (by decide) (by decide)⟩

/-- C2 (ranked drain).  For a table built by `insert` calls, reading `top()` and
calling `pop()` until `empty()` returns every group of the table exactly once, in
an order in which `getcount()` never increases. -/
theorem ranked_drain (obs : List Observation) :
    (popAll (build obs)).Perm (build obs).table ∧
      ((popAll (build obs)).map entry.getcount).Pairwise (fun a b => a ≥ b) := by
  obtain ⟨h1, h2⟩ := popAllLoop_spec (build obs).size (build obs) (le_refl _) (build_heap obs)
  exact ⟨h1, List.pairwise_map.mpr h2⟩


/-- C3 (conservation).  After `n` calls of `insert` on an empty table the
`getcount()` of all groups add up to `n`; and one call of `insert` on any table
either replaces one group `e` of the table by `e.add st`, which has the same
identifier and a `getcount()` one higher, or adds one new group whose
`getcount()` is 1; every other group stays as it is (the groups may change
places in the vector). -/
theorem count_conservation :
    (∀ obs : List Observation,
      ((build obs).table.map entry.getcount).sum = obs.length) ∧
    (∀ (ft : freqtable) (fileid : List Nat) (st : stat) (cl : classifier),
      (∃ e, e ∈ ft.table ∧ (e.add st).getcount = e.getcount + 1 ∧ (e.add st).id = e.id ∧
          (ft.insert fileid st cl).table.Perm (e.add st :: ft.table.erase e)) ∨
      ((entry.assign fileid st).getcount = 1 ∧ (entry.assign fileid st).id = fileid ∧
          (ft.insert fileid st cl).table.Perm (entry.assign fileid st :: ft.table))) := by
  constructor
  · intro obs
    have := insertAll_total obs freqtable.new
    simpa [build, freqtable.new] using this
  · intro ft fileid st cl
    rcases insert_perm ft fileid st cl with ⟨e, he, _, hperm⟩ | ⟨_, hperm⟩
    · exact Or.inl ⟨e, he, entry_getcount_add e st, entry_id_add e st, hperm⟩
    · exact Or.inr ⟨entry_getcount_assign fileid st, entry_id_add _ st, hperm⟩

/-- C4 (top is a maximum).  For a non-empty table built by `insert` calls, `top()`
returns a group of the table whose `getcount()` is at least that of every group
in the table.  `top` is a `const` member: the embedding makes it a function of
the table that returns no new table, so size, order and groups stay as they
are. -/
theorem top_is_maximum (obs : List Observation) (h : (build obs).empty = false) :
    ∃ e, (build obs).top = Result.ok e ∧ (build obs).table[0]? = some e ∧
      ∀ g ∈ (build obs).table, g.getcount ≤ e.getcount := by
  have H := build_heap obs
  generalize build obs = ft at h H
  obtain ⟨t⟩ := ft
  cases t with
  | nil => simp [freqtable.empty] at h
  | cons e rest => exact ⟨e, rfl, by simp, getcount_le_head e rest H⟩

/-- Witness of C4 on the three observations of the scenario. -/
theorem top_is_maximum_witness :
    (build (scenarioObs binary_classifier)).empty = false ∧
    ∃ e, (build (scenarioObs binary_classifier)).top = Result.ok e ∧
      (build (scenarioObs binary_classifier)).table[0]? = some e ∧
      ∀ g ∈ (build (scenarioObs binary_classifier)).table, g.getcount ≤ e.getcount :=
  ⟨by decide, top_is_maximum (scenarioObs binary_classifier) (by decide)⟩

/-- C5, as stated, fails: on the empty table neither `top()` nor `pop()` signals
an error. -/
theorem empty_table_signals_nothing :
    ¬ (freqtable.top freqtable.new = Result.exception) ∧
    ¬ (freqtable.pop freqtable.new = Result.exception) := by
  constructor <;> decide

/-- C5, amended.  A freshly constructed table has `empty()` true and `size()` 0.
`top()` and `pop()` make no emptiness test: on the empty table their behaviour is
undefined, and on every table they return exactly when `empty()` is false. -/
theorem empty_table_top_pop_undefined :
    freqtable.new.empty = true ∧ freqtable.new.size = 0 ∧
    freqtable.top freqtable.new = Result.undefined ∧
    freqtable.pop freqtable.new = Result.undefined ∧
    (∀ ft : freqtable, (∃ e, ft.top = Result.ok e) ↔ ft.empty = false) ∧
    (∀ ft : freqtable, (∃ ft1, ft.pop = Result.ok ft1) ↔ ft.empty = false) := by
  refine ⟨rfl, rfl, rfl, rfl, ?_, ?_⟩
  · rintro ⟨t⟩
    cases t with
    | nil => simp [freqtable.top, freqtable.empty]
    | cons e rest => simp [freqtable.top, freqtable.empty]
  · rintro ⟨t⟩
    cases t with
    | nil => simp [freqtable.pop, freqtable.empty]
    | cons e rest => simp [freqtable.pop, freqtable.empty]

/-- C6 (classifier consistency).  For two identifiers (C strings; the second is
one as soon as the first is) that differ only in the case of ASCII letters,
inserting the first and then the second into an empty
table gives, with the case-insensitive classifier, one group whose `getcount()`
is 2, and with the exact classifier two groups whose `getcount()` is 1 each. -/
theorem classifier_consistency (s1 s2 : List Nat) (st1 st2 : stat)
    (h1 : isCString s1) (hd : differOnlyInAsciiCase s1 s2) :
    ((build [{ fileid := s1, st := st1, cl := case_insensitive_classifier },
             { fileid := s2, st := st2, cl := case_insensitive_classifier }]).size = 1 ∧
      (build [{ fileid := s1, st := st1, cl := case_insensitive_classifier },
              { fileid := s2, st := st2, cl := case_insensitive_classifier }]).table.map
        entry.getcount = [2]) ∧
    ((build [{ fileid := s1, st := st1, cl := binary_classifier },
             { fileid := s2, st := st2, cl := binary_classifier }]).size = 2 ∧
      (build [{ fileid := s1, st := st1, cl := binary_classifier },
              { fileid := s2, st := st2, cl := binary_classifier }]).table.map
        entry.getcount = [1, 1]) := by
  have hci : case_insensitive_classifier s1 s2 = true := by
    simp [case_insensitive_classifier, strcasecmp_eq_zero s1 s2 hd.1 h1]
  have hbin : binary_classifier s1 s2 = false := by
    simp [binary_classifier, strcmp_ne_zero s1 s2 hd.1 h1 hd.2]
  rw [build_pair_matched s1 s2 st1 st2 _ hci, build_pair_unmatched s1 s2 st1 st2 _ hbin]
  simp [freqtable.size, entry_getcount_add, entry_getcount_assign]

/-- Witness of C6: `JPG` then `jpg`. -/
theorem classifier_consistency_witness :
    isCString id_JPG ∧ differOnlyInAsciiCase id_JPG id_jpg ∧
    ((build [{ fileid := id_JPG, st := { st_dev := 1, st_ino := 10, st_size := 2048 },
               cl := case_insensitive_classifier },
             { fileid := id_jpg, st := { st_dev := 1, st_ino := 11, st_size := 512 },
               cl := case_insensitive_classifier }]).size = 1 ∧
      (build [{ fileid := id_JPG, st := { st_dev := 1, st_ino := 10, st_size := 2048 },
                cl := case_insensitive_classifier },
              { fileid := id_jpg, st := { st_dev := 1, st_ino := 11, st_size := 512 },
                cl := case_insensitive_classifier }]).table.map entry.getcount = [2]) ∧
    ((build [{ fileid := id_JPG, st := { st_dev := 1, st_ino := 10, st_size := 2048 },
               cl := binary_classifier },
             { fileid := id_jpg, st := { st_dev := 1, st_ino := 11, st_size := 512 },
               cl := binary_classifier }]).size = 2 ∧
      (build [{ fileid := id_JPG, st := { st_dev := 1, st_ino := 10, st_size := 2048 },
                cl := binary_classifier },
              { fileid := id_jpg, st := { st_dev := 1, st_ino := 11, st_size := 512 },
                cl := binary_classifier }]).table.map entry.getcount = [1, 1]) :=
  have hc1 : isCString id_JPG := by unfold isCString id_JPG; decide
  have hd : differOnlyInAsciiCase id_JPG id_jpg :=
    ⟨List.Forall₂.cons (by unfold sameUpToAsciiCase; decide)
      (List.Forall₂.cons (by unfold sameUpToAsciiCase; decide)
        (List.Forall₂.cons (by unfold sameUpToAsciiCase; decide) List.Forall₂.nil)),
      by decide⟩
  ⟨hc1, hd, classifier_consistency id_JPG id_jpg _ _ hc1 hd⟩

/-- C7, as stated, fails: with dedup enabled the first line printed for the
scenario is not `jpg` with count 2, one device and 2048 bytes. -/
theorem scenario_count_is_not_two :
    (drain false (build (scenarioObs binary_classifier))).head? ≠
      some { id := id_jpg, devices := 1, count := 2, bytes := 2048 } := by
  decide

/-- C7, amended.  For the scenario, under either classifier, the drain loop with
dedup prints `jpg` with count 1 (the count is read after `remove_duplicates()`),
one device and 2048 bytes, then `png` with count 1 and 4096 bytes; with
count-links it prints `jpg` with count 2 and 4096 bytes, then the same `png`
line. -/
theorem scenario_drain_output :
    drain false (build (scenarioObs binary_classifier)) =
      [{ id := id_jpg, devices := 1, count := 1, bytes := 2048 },
       { id := id_png, devices := 1, count := 1, bytes := 4096 }] ∧
    drain true (build (scenarioObs binary_classifier)) =
      [{ id := id_jpg, devices := 1, count := 2, bytes := 4096 },
       { id := id_png, devices := 1, count := 1, bytes := 4096 }] ∧
    drain false (build (scenarioObs case_insensitive_classifier)) =
      [{ id := id_jpg, devices := 1, count := 1, bytes := 2048 },
       { id := id_png, devices := 1, count := 1, bytes := 4096 }] ∧
    drain true (build (scenarioObs case_insensitive_classifier)) =
      [{ id := id_jpg, devices := 1, count := 2, bytes := 4096 },
       { id := id_png, devices := 1, count := 1, bytes := 4096 }] := by
  refine ⟨by decide, by decide, by decide, by decide⟩

/-- C8, as stated, fails: three hard links of one `jpg` inode and two different
`png` files are reported, with dedup, as count 1 and then count 2. -/
theorem reported_counts_can_increase :
    (drain false (build linkedObs)).map Row.count = [1, 2] ∧
    ¬ ((drain false (build linkedObs)).map Row.count).Pairwise (fun a b => a ≥ b) := by
  constructor <;> decide

/-- C8, amended.  The drain loop prints one line per group, in the order in which
`top()` and `pop()` deliver the groups, and that order is non-increasing in the
`getcount()` the groups have in the table, before `remove_duplicates()`.  With
count-links these are the counts printed, so the printed counts never increase;
without it each line shows the group after `remove_duplicates()`. -/
theorem drain_order_by_link_count (obs : List Observation) :
    ((popAll (build obs)).map entry.getcount).Pairwise (fun a b => a ≥ b) ∧
    drain true (build obs) = (popAll (build obs)).map (reportRow true) ∧
    ((drain true (build obs)).map Row.count).Pairwise (fun a b => a ≥ b) ∧
    drain false (build obs) = (popAll (build obs)).map (reportRow false) := by
  have hs := (popAllLoop_spec (build obs).size (build obs) (le_refl _) (build_heap obs)).2
  have h1 : ((popAll (build obs)).map entry.getcount).Pairwise (fun a b => a ≥ b) :=
    List.pairwise_map.mpr hs
  refine ⟨h1, drainLoop_eq_map _ _ _, ?_, drainLoop_eq_map _ _ _⟩
  unfold drain
  rw [drainLoop_eq_map, List.map_map]
  exact h1

/-- C9, at the failing input: a group that saw inode 10, inode 20 and inode 10
again on one device keeps, after `remove_duplicates()`, both entries of inode 10
in the bucket, and `getbytes()` counts the 2048 bytes twice. -/
theorem dedup_keeps_separated_links :
    interleavedGroup.remove_duplicates.devices =
      [{ metadata := [(10, 2048), (20, 1), (10, 2048)], dev_id := 1 }] ∧
    interleavedGroup.remove_duplicates.getcount = 3 ∧
    interleavedGroup.remove_duplicates.getbytes = 4097 := by
  decide

/-- C10 (adjacency-only dedup).  For every bucket, `remove_duplicates()` keeps the
device id and replaces the entry list by the list in which every maximal run of
consecutive identical pairs is collapsed to its first element; the result is a
sublist of the old list (order kept) with no two adjacent entries equal.  It is
not a set-dedup: in `[(10,2048),(20,1),(10,2048)]` nothing is removed and the
pair `(10,2048)` is still there twice. -/
theorem adjacency_only_dedup :
    (∀ d : device,
      d.remove_duplicates.dev_id = d.dev_id ∧
      d.remove_duplicates.metadata = collapseRuns d.metadata ∧
      d.remove_duplicates.metadata.Sublist d.metadata ∧
      List.Chain' (fun x y => x ≠ y) d.remove_duplicates.metadata) ∧
    interleavedBucket.remove_duplicates.metadata = [(10, 2048), (20, 1), (10, 2048)] ∧
    interleavedBucket.remove_duplicates.metadata.count (10, 2048) = 2 := by
  refine ⟨fun d => ⟨rfl, unique_eq_collapseRuns _, unique_sublist _, unique_chain _⟩, ?_, ?_⟩
  · decide
  · decide

/-- C11 (dedup idempotence).  For every group, a second `remove_duplicates()`
changes nothing: the group is the same as after the first call, and so are its
`getbytes()`, `getdevices()` and `getcount()`. -/
theorem dedup_idempotent (e : entry) :
    e.remove_duplicates.remove_duplicates = e.remove_duplicates ∧
    e.remove_duplicates.remove_duplicates.getbytes = e.remove_duplicates.getbytes ∧
    e.remove_duplicates.remove_duplicates.getdevices = e.remove_duplicates.getdevices ∧
    e.remove_duplicates.remove_duplicates.getcount = e.remove_duplicates.getcount := by
  rw [entry_remove_duplicates_idem]
  exact ⟨rfl, rfl, rfl, rfl⟩

/-- C17 (pop restores the heap).  For a non-empty table in max-heap order on
`getcount()`, `pop()` returns a table that is again in heap order, has one group
less, and holds exactly the groups that followed the former root, each as it
was. -/
theorem pop_restores_heap (ft : freqtable) (hne : ft.empty = false)
    (H : heapInvariant ft.table) :
    ∃ root rest ft1, ft.table = root :: rest ∧ ft.top = Result.ok root ∧
      ft.pop = Result.ok ft1 ∧ heapInvariant ft1.table ∧ ft1.size + 1 = ft.size ∧
      ft1.table.Perm rest := by
  obtain ⟨t⟩ := ft
  cases t with
  | nil => simp [freqtable.empty] at hne
  | cons e rest =>
    obtain ⟨ft1, hpop, hperm, hheap⟩ := pop_spec e rest
    refine ⟨e, rest, ft1, rfl, rfl, hpop, hheap H, ?_, hperm⟩
    simp only [freqtable.size, hperm.length_eq, List.length_cons]

/-- Witness of C17 on the table of the scenario (`jpg` with count 2 over `png`
with count 1). -/
theorem pop_restores_heap_witness :
    (build (scenarioObs binary_classifier)).empty = false ∧
    heapInvariant (build (scenarioObs binary_classifier)).table ∧
    ∃ root rest ft1, (build (scenarioObs binary_classifier)).table = root :: rest ∧
      (build (scenarioObs binary_classifier)).top = Result.ok root ∧
      (build (scenarioObs binary_classifier)).pop = Result.ok ft1 ∧
      heapInvariant ft1.table ∧
      ft1.size + 1 = (build (scenarioObs binary_classifier)).size ∧
      ft1.table.Perm rest :=
  ⟨by decide, build_heap _,
    pop_restores_heap (build (scenarioObs binary_classifier)) (by decide) (build_heap _)⟩

/-- C18 (insert frame).  When the identifier of an `insert` matches a group of the
table under the classifier, the table afterwards holds the same groups, possibly
in another order, except that one matching group `e` has become `e.add st`: its
identifier is the one it had (the spelling of the observation that created it),
`size()` is the same, and every other group is untouched. -/
theorem insert_frame (ft : freqtable) (fileid : List Nat) (st : stat) (cl : classifier)
    (h : ∃ g ∈ ft.table, cl g.getid fileid = true) :
    ∃ e, e ∈ ft.table ∧ cl e.getid fileid = true ∧ (e.add st).getid = e.getid ∧
      (ft.insert fileid st cl).table.Perm (e.add st :: ft.table.erase e) ∧
      ((ft.insert fileid st cl).table.map entry.getid).Perm (ft.table.map entry.getid) ∧
      (ft.insert fileid st cl).size = ft.size := by
  obtain ⟨e, he, hcl, hperm⟩ := insert_size_of_match ft fileid st cl h
  have hid : (e.add st).getid = e.getid := entry_id_add e st
  have hids : ((ft.insert fileid st cl).table.map entry.getid).Perm
      (ft.table.map entry.getid) := by
    refine (hperm.map entry.getid).trans ?_
    rw [List.map_cons, hid, ← List.map_cons]
    exact ((List.perm_cons_erase he).map entry.getid).symm
  refine ⟨e, he, hcl, hid, hperm, hids, ?_⟩
  have := hids.length_eq
  simpa [freqtable.size] using this

/-- Witness of C18: the table holding the one group `JPG` receives `jpg` under the
case-insensitive classifier; the group keeps the identifier `JPG`. -/
theorem insert_frame_witness :
    (∃ g ∈ upperCaseTable.table, case_insensitive_classifier g.getid id_jpg = true) ∧
    ∃ e, e ∈ upperCaseTable.table ∧
      case_insensitive_classifier e.getid id_jpg = true ∧
      (e.add { st_dev := 1, st_ino := 11, st_size := 512 }).getid = e.getid ∧
      (upperCaseTable.insert id_jpg { st_dev := 1, st_ino := 11, st_size := 512 }
          case_insensitive_classifier).table.Perm
        (e.add { st_dev := 1, st_ino := 11, st_size := 512 } ::
          upperCaseTable.table.erase e) ∧
      ((upperCaseTable.insert id_jpg { st_dev := 1, st_ino := 11, st_size := 512 }
          case_insensitive_classifier).table.map entry.getid).Perm
        (upperCaseTable.table.map entry.getid) ∧
      (upperCaseTable.insert id_jpg { st_dev := 1, st_ino := 11, st_size := 512 }
          case_insensitive_classifier).size = upperCaseTable.size :=
  have hm : ∃ g ∈ upperCaseTable.table, case_insensitive_classifier g.getid id_jpg = true :=
    ⟨entry.assign id_JPG { st_dev := 1, st_ino := 10, st_size := 2048 }, by decide, by decide⟩
  ⟨hm, insert_frame upperCaseTable id_jpg { st_dev := 1, st_ino := 11, st_size := 512 }
    case_insensitive_classifier hm⟩

/-- C12 (identifier uniqueness).  After any sequence of `insert` calls on an empty
table with one classifier, exact or case-insensitive, the classifier reports no
two different groups of the table as having equal identifiers, in either
argument order. -/
theorem identifiers_unique (case_insensitive : Bool) (files : List (List Nat × stat)) :
    (build (observe case_insensitive files)).table.Pairwise
      (fun a b => classifierOf case_insensitive a.getid b.getid = false ∧
        classifierOf case_insensitive b.getid a.getid = false) :=
  insertAll_observe_pairwise case_insensitive files freqtable.new List.Pairwise.nil

/-- C15 (group count bound).  After any sequence of `insert` calls on an empty
table, each with the exact or the case-insensitive classifier, `size()` is at
most the number of distinct identifiers inserted; when every call uses the exact
classifier and the identifiers are C strings, `size()` equals that number. -/
theorem group_count_bound :
    (∀ calls : List (Bool × List Nat × stat),
      (build (observeEach calls)).size ≤ ((calls.map (fun c => c.2.1)).dedup).length) ∧
    (∀ files : List (List Nat × stat), (∀ f ∈ files, isCString f.1) →
      (build (observe false files)).size = ((files.map (fun f => f.1)).dedup).length) := by
  constructor
  · intro calls
    obtain ⟨hnd, hsub⟩ := insertAll_observeEach_ids calls freqtable.new []
      (by simp [freqtable.new]) (by simp [freqtable.new])
    have hlen : (build (observeEach calls)).size =
        ((build (observeEach calls)).table.map entry.getid).length := by
      simp [freqtable.size]
    rw [hlen]
    apply List.Subperm.length_le
    apply List.subperm_of_subset hnd
    intro s hs
    rw [List.mem_dedup]
    have := hsub s hs
    rwa [List.nil_append] at this
  · intro files hfiles
    have hnd := (insertAll_observeEach_ids (files.map (fun f => (false, f.1, f.2)))
      freqtable.new [] (by simp [freqtable.new]) (by simp [freqtable.new])).1
    rw [← observe_eq_observeEach] at hnd
    have hmem := insertAll_observe_exact_ids files freqtable.new [] hfiles (by simp)
      (by simp [freqtable.new])
    have hlen : (build (observe false files)).size =
        ((build (observe false files)).table.map entry.getid).length := by
      simp [freqtable.size]
    rw [hlen]
    apply List.Perm.length_eq
    unfold build
    rw [List.perm_ext_iff_of_nodup hnd (List.nodup_dedup _)]
    intro s
    rw [List.mem_dedup, hmem s, List.nil_append]

/-- Witness of C15: `jpg`, `jpg`, `png` under the exact classifier give two
groups for two distinct identifiers. -/
theorem group_count_bound_witness :
    (∀ f ∈ scenarioFiles, isCString f.1) ∧
    (build (observe false scenarioFiles)).size =
      ((scenarioFiles.map (fun f => f.1)).dedup).length :=
  have h : ∀ f ∈ scenarioFiles, isCString f.1 := by
    unfold scenarioFiles isCString id_jpg id_png; decide
  ⟨h, group_count_bound.2 scenarioFiles h⟩

/-- C13 (device buckets).  In a group built by `add` calls the device ids of the
buckets are pairwise distinct, every bucket holds exactly the pairs of the
observations whose `st_dev` is its device id (in order of arrival), every
observation has its bucket, and `getdevices()` is the number of distinct device
ids among the observations. -/
theorem device_buckets (fileid : List Nat) (sts : List stat) :
    ((groupOf fileid sts).devices.map device.getdevice).Nodup ∧
    (∀ d ∈ (groupOf fileid sts).devices,
      d.metadata =
        (sts.filter (fun s => s.st_dev = d.getdevice)).map (fun s => (s.st_ino, s.st_size))) ∧
    (∀ s ∈ sts, ∃ d ∈ (groupOf fileid sts).devices, d.getdevice = s.st_dev) ∧
    (groupOf fileid sts).getdevices = ((sts.map (fun s => s.st_dev)).dedup).length := by
  obtain ⟨hnd, hb, hs⟩ := groupOf_buckets fileid sts
  refine ⟨hnd, fun d hd => (hb d hd).2, ?_, ?_⟩
  · intro s hs2
    obtain ⟨d, hd, hd2⟩ := List.mem_map.mp (hs s hs2)
    exact ⟨d, hd, hd2⟩
  · have hlen : (groupOf fileid sts).getdevices =
        ((groupOf fileid sts).devices.map device.getdevice).length := by
      simp [entry.getdevices]
    rw [hlen]
    apply List.Perm.length_eq
    rw [List.perm_ext_iff_of_nodup hnd (List.nodup_dedup _)]
    intro a
    rw [List.mem_dedup]
    constructor
    · intro ha
      obtain ⟨d, hd, rfl⟩ := List.mem_map.mp ha
      exact (hb d hd).1
    · intro ha
      obtain ⟨s, hs2, rfl⟩ := List.mem_map.mp ha
      exact hs s hs2

/-- C20, as stated, fails: for two hard links of one file of `2^62` bytes (sizes
non-negative) the `off_t` sum of `getbytes()` wraps to `-2^63` before dedup and
is `2^62` after it, so `remove_duplicates()` raises `getbytes()`. -/
theorem dedup_raises_wrapped_bytes :
    (∀ s ∈ hugeStats, 0 ≤ s.st_size) ∧
    (groupOf id_jpg hugeStats).getbytes = -9223372036854775808 ∧
    (groupOf id_jpg hugeStats).remove_duplicates.getbytes = 4611686018427387904 ∧
    ¬ ((groupOf id_jpg hugeStats).remove_duplicates.getbytes ≤
        (groupOf id_jpg hugeStats).getbytes) := by
  refine ⟨by unfold hugeStats; decide, by decide, by decide, by decide⟩

/-- C20, amended.  In a group built by one or more `add` calls with non-negative
sizes every bucket is non-empty; `remove_duplicates()` keeps `getdevices()`, does
not increase `getcount()`, keeps every bucket non-empty, and does not increase
`getbytes()` when the sizes add up to less than `2^63` (the `off_t` sums do not
wrap); `getcount() >= getdevices() >= 1` holds before and after. -/
theorem dedup_bounds (fileid : List Nat) (st : stat) (sts : List stat)
    (hsz : ∀ s ∈ st :: sts, 0 ≤ s.st_size) :
    (∀ d ∈ (groupOf fileid (st :: sts)).devices, 1 ≤ d.getcount) ∧
    (groupOf fileid (st :: sts)).remove_duplicates.getdevices =
      (groupOf fileid (st :: sts)).getdevices ∧
    (groupOf fileid (st :: sts)).remove_duplicates.getcount ≤
      (groupOf fileid (st :: sts)).getcount ∧
    (((st :: sts).map (fun s => s.st_size)).sum < 9223372036854775808 →
      (groupOf fileid (st :: sts)).remove_duplicates.getbytes ≤
        (groupOf fileid (st :: sts)).getbytes) ∧
    (∀ d ∈ (groupOf fileid (st :: sts)).remove_duplicates.devices, 1 ≤ d.getcount) ∧
    (1 ≤ (groupOf fileid (st :: sts)).getdevices ∧
      (groupOf fileid (st :: sts)).getdevices ≤ (groupOf fileid (st :: sts)).getcount) ∧
    (1 ≤ (groupOf fileid (st :: sts)).remove_duplicates.getdevices ∧
      (groupOf fileid (st :: sts)).remove_duplicates.getdevices ≤
        (groupOf fileid (st :: sts)).remove_duplicates.getcount) := by
  have hf := groupOf_bucket_facts fileid (st :: sts) hsz
  have hdev : 1 ≤ (groupOf fileid (st :: sts)).getdevices := by
    have := (groupOf_buckets fileid (st :: sts)).2.2 st (List.mem_cons_self _ _)
    have hl := List.length_pos_of_mem this
    simpa [entry.getdevices] using hl
  have hsame : (groupOf fileid (st :: sts)).remove_duplicates.getdevices =
      (groupOf fileid (st :: sts)).getdevices := by
    simp [entry.remove_duplicates, entry.getdevices]
  have hpos2 : ∀ d ∈ (groupOf fileid (st :: sts)).remove_duplicates.devices,
      1 ≤ d.getcount := by
    intro d hd
    obtain ⟨d0, hd0, rfl⟩ := List.mem_map.mp hd
    exact device_dedup_count_pos d0 (hf d0 hd0).1
  refine ⟨fun d hd => (hf d hd).1, hsame, ?_, ?_, hpos2, ⟨hdev, ?_⟩, ⟨by omega, ?_⟩⟩
  · rw [entry_getcount_eq, entry_getcount_eq]
    simp only [entry.remove_duplicates, List.map_map]
    exact map_sum_le_nat _ _ _ (fun d _ => device_dedup_count_le d)
  · intro hsum
    exact entry_dedup_bytes_le _ (fun d hd => (hf d hd).2)
      (by rw [groupSum_groupOf]; exact hsum)
  · rw [entry_getcount_eq]
    exact length_le_sum_of_pos _ _ (fun d hd => (hf d hd).1)
  · rw [entry_getcount_eq]
    exact length_le_sum_of_pos _ _ hpos2

/-- Witness of C20: two hard links of one inode and one other file on one device,
8192 bytes in all; dedup does not raise `getbytes()`. -/
theorem dedup_bounds_witness :
    (∀ s ∈ linkedStats, 0 ≤ s.st_size) ∧
    (linkedStats.map (fun s => s.st_size)).sum < 9223372036854775808 ∧
    (groupOf id_jpg linkedStats).remove_duplicates.getbytes ≤
      (groupOf id_jpg linkedStats).getbytes ∧
    (∀ d ∈ (groupOf id_jpg linkedStats).devices, 1 ≤ d.getcount) ∧
    (groupOf id_jpg linkedStats).remove_duplicates.getdevices =
      (groupOf id_jpg linkedStats).getdevices ∧
    (groupOf id_jpg linkedStats).remove_duplicates.getcount ≤
      (groupOf id_jpg linkedStats).getcount ∧
    ((linkedStats.map (fun s => s.st_size)).sum < 9223372036854775808 →
      (groupOf id_jpg linkedStats).remove_duplicates.getbytes ≤
        (groupOf id_jpg linkedStats).getbytes) ∧
    (∀ d ∈ (groupOf id_jpg linkedStats).remove_duplicates.devices, 1 ≤ d.getcount) ∧
    (1 ≤ (groupOf id_jpg linkedStats).getdevices ∧
      (groupOf id_jpg linkedStats).getdevices ≤ (groupOf id_jpg linkedStats).getcount) ∧
    (1 ≤ (groupOf id_jpg linkedStats).remove_duplicates.getdevices ∧
      (groupOf id_jpg linkedStats).remove_duplicates.getdevices ≤
        (groupOf id_jpg linkedStats).remove_duplicates.getcount) :=
  have h : ∀ s ∈ linkedStats, 0 ≤ s.st_size := by unfold linkedStats; decide
  have hsum : (linkedStats.map (fun s => s.st_size)).sum < 9223372036854775808 := by decide
  ⟨h, hsum,
    (dedup_bounds id_jpg { st_dev := 1, st_ino := 10, st_size := 2048 }
      [{ st_dev := 1, st_ino := 10, st_size := 2048 },
       { st_dev := 1, st_ino := 20, st_size := 4096 }] h).2.2.2.1 hsum,
    dedup_bounds id_jpg { st_dev := 1, st_ino := 10, st_size := 2048 }
      [{ st_dev := 1, st_ino := 10, st_size := 2048 },
       { st_dev := 1, st_ino := 20, st_size := 4096 }] h⟩

/-- C14, at the failing input: for the regular file named `a.` the traversal
driver calls `insert` with the empty identifier, and the table gets a group whose
identifier is empty.  For comparison, `a.jpg` gives `jpg` and `ab` gives no
call. -/
theorem empty_identifier_reaches_core :
    regular_file_id [97, 46] = some [] ∧
    (parse_regular [97, 46] { st_dev := 1, st_ino := 10, st_size := 2048 } freqtable.new
        binary_classifier).table.map entry.getid = [[]] ∧
    regular_file_id [97, 46, 106, 112, 103] = some id_jpg ∧
    regular_file_id [97, 98] = none := by
  decide

/-- C16, at the failing input: the table maps `0xC5` to itself and not to `0xE5`,
so the one-byte strings `[0xC5]` and `[0xE5]` are classified as different.  Every
`b` in `0x41..0x5A` is classified equal to `b + 0x20`, and `0xC5` is the only `b`
in `0xC1..0xDA` that is not. -/
theorem high_letter_not_folded :
    charmap 0xC5 = 0xC5 ∧ charmap 0xE5 = 0xE5 ∧
    case_insensitive_classifier [0xC5] [0xE5] = false ∧
    (List.range' 0x41 26).all (fun b => case_insensitive_classifier [b] [b + 0x20]) = true ∧
    (List.range' 0xC1 26).filter (fun b => !case_insensitive_classifier [b] [b + 0x20]) =
      [0xC5] := by
  refine ⟨by decide, by decide, by decide, by decide, by decide⟩

/-- C19 (index safety of the heap routines).  For every table and every index
`i < size()`, `bubbleUp(i)` reaches the exit of its loop, its result is the table
that the embedding of `bubbleUp` computes, and every position it reads or swaps
is below `size()`; for `i = 0` it dereferences nothing, the parent index
`parent(0)` included.  `trickleDown(0)` likewise reaches its `break` on every
table with every position read or swapped below `size()`; on the empty table,
which is what `pop()` hands over from a one-element table, it dereferences
nothing. -/
theorem heap_routines_index_safe (t : List entry) (i : Nat) (hi : i < t.length) :
    (∃ acc, bubbleUpRun (i + 1) t i (parent i) = some ((bubbleUp { table := t } i).table, acc) ∧
      ∀ x ∈ acc, x < t.length) ∧
    bubbleUpRun 1 t 0 (parent 0) = some (t, []) ∧
    (∃ acc, trickleDownRun (t.length + 1) t.length t 0 =
        some ((trickleDown { table := t } 0).table, acc) ∧
      ∀ x ∈ acc, x < t.length) ∧
    trickleDownRun 1 0 [] 0 = some ([], []) ∧
    (∀ e : entry, freqtable.pop { table := [e] } = Result.ok { table := [] }) := by
  refine ⟨bubbleUpRun_spec i t i (le_refl _) hi, ?_, ?_, rfl, fun e => rfl⟩
  · simp [bubbleUpRun]
  · have := trickleDownRun_spec t.length t 0 (by omega)
    simpa [trickleDown] using this

/-- Witness of C19 on the table of the scenario, at its last index. -/
theorem heap_routines_index_safe_witness :
    1 < scenarioTable.length ∧
    (∃ acc, bubbleUpRun (1 + 1) scenarioTable 1 (parent 1) =
        some ((bubbleUp { table := scenarioTable } 1).table, acc) ∧
      ∀ x ∈ acc, x < scenarioTable.length) ∧
    bubbleUpRun 1 scenarioTable 0 (parent 0) = some (scenarioTable, []) ∧
    (∃ acc, trickleDownRun (scenarioTable.length + 1) scenarioTable.length scenarioTable 0 =
        some ((trickleDown { table := scenarioTable } 0).table, acc) ∧
      ∀ x ∈ acc, x < scenarioTable.length) ∧
    trickleDownRun 1 0 [] 0 = some ([], []) ∧
    (∀ e : entry, freqtable.pop { table := [e] } = Result.ok { table := [] }) :=
  ⟨by decide, heap_routines_index_safe scenarioTable 1 (by decide)⟩

end Fec
